import Mathlib

/-!
Verification of the ledger-smart-converter ingestion/reconciliation/
classification/persistence core against its specification.

The Python sources are shallowly embedded:
* strings are Lean `String`/`List Char`; the character universe is the
  NFKC-normalized ASCII + Spanish accented letters actually used by the
  program, and Python case mapping (`str.upper`, `str.lower`, `str.title`)
  is embedded characterwise over that universe;
* monetary amounts are embedded as exact values: `ℤ` cents where the code
  formats with two decimals (`f"{x:.2f}"`), `ℚ` where the code compares with
  a 0.01 tolerance (the float representation itself is not modelled);
* SHA-256 digests are represented by their input strings: equal inputs give
  equal digests, and distinct inputs are treated as distinct keys (sound up
  to SHA-256 collisions);
* SQLite tables are embedded as in-memory lists; the uniqueness constraint
  on transactions.source_hash lives in src/database/schema.sql, which is not
  part of the source snapshot, so it is modelled from the spec where noted.
-/

namespace LedgerConv

/-! ### Character universe and Python case mapping -/
/-- Case pairs (lower, upper) of the embedded character universe:
ASCII letters plus the Spanish accented letters used by the program. -/
def caseTable : List (Char × Char) :=
  [('a', 'A'), ('b', 'B'), ('c', 'C'), ('d', 'D'), ('e', 'E'), ('f', 'F'),
   ('g', 'G'), ('h', 'H'), ('i', 'I'), ('j', 'J'), ('k', 'K'), ('l', 'L'),
   ('m', 'M'), ('n', 'N'), ('o', 'O'), ('p', 'P'), ('q', 'Q'), ('r', 'R'),
   ('s', 'S'), ('t', 'T'), ('u', 'U'), ('v', 'V'), ('w', 'W'), ('x', 'X'),
   ('y', 'Y'), ('z', 'Z'),
   ('á', 'Á'), ('é', 'É'), ('í', 'Í'), ('ó', 'Ó'), ('ú', 'Ú'), ('ñ', 'Ñ'),
   ('ü', 'Ü')]

/-- Python `str.upper`, characterwise on the embedded universe. -/
def upperChar (c : Char) : Char :=
  match caseTable.find? (fun p => p.1 == c) with
  | some p => p.2
  | none => c

/-- Python `str.lower`, characterwise on the embedded universe. -/
def lowerChar (c : Char) : Char :=
  match caseTable.find? (fun p => p.2 == c) with
  | some p => p.1
  | none => c

/-- A cased character (Python: a letter with case), i.e. a member of a case
pair of the universe. -/
def isCasedChar (c : Char) : Bool :=
  caseTable.any (fun p => p.1 == c || p.2 == c)

/-- Python regex `\s` / `str.strip` whitespace, over the embedded universe. -/
def isSpaceChar (c : Char) : Bool :=
  c == ' ' || c == '\t' || c == '\n' || c == '\r' ||
  c == '\x0b' || c == '\x0c'

/-! ### Python string primitives on `List Char` -/
/-- Python `str.upper` on a character list. -/
def pyUpperL (l : List Char) : List Char := l.map upperChar

/-- Python `str.lower` on a character list. -/
def pyLowerL (l : List Char) : List Char := l.map lowerChar

/-- Python `str.strip` on a character list. -/
def pyStripL (l : List Char) : List Char :=
  ((l.dropWhile isSpaceChar).reverse.dropWhile isSpaceChar).reverse

/-- Python `str.title` on a character list: a cased character becomes
uppercase after an uncased character (or at the start) and lowercase after a
cased one. -/
def pyTitleGo (prevCased : Bool) : List Char → List Char
  | [] => []
  | c :: rest =>
      if isCasedChar c then
        (if prevCased then lowerChar c else upperChar c) :: pyTitleGo true rest
      else c :: pyTitleGo false rest

def pyTitleL (l : List Char) : List Char := pyTitleGo false l

/-! ### Decimal rendering (Python `str(int)` and `f"{x:.2f}"`) -/
/-- One decimal digit as a character. -/
def digitChar (d : ℕ) : Char := Char.ofNat (48 + d)

/-- Decimal rendering (most significant digit first) of a positive natural
number; the first argument is recursion fuel, always instantiated at a value
at least the number. -/
def natDecAux : ℕ → ℕ → List Char
  | _, 0 => []
  | 0, _ + 1 => []
  | fuel + 1, n + 1 => natDecAux fuel ((n + 1) / 10) ++ [digitChar ((n + 1) % 10)]

/-- Decimal rendering of a natural number (Python `str(int)` for
nonnegative values). -/
def natToDecL (n : ℕ) : List Char := if n = 0 then ['0'] else natDecAux n n

/-- Decimal decoding; inverse of `natToDecL` on digit strings. -/
def decVal (l : List Char) : ℕ := l.foldl (fun a c => 10 * a + (c.toNat - 48)) 0

/-- Two-decimal fraction part: always two digit characters for values < 100. -/
def pad2 (n : ℕ) : List Char :=
  if n < 10 then '0' :: natToDecL n else natToDecL n

/-- Embedding of Python `f"{amount:.2f}"` on an exact amount of `cents`
hundredths (the float is modelled by the exact cent value it denotes). -/
def formatCents (cents : ℤ) : List Char :=
  (if cents < 0 then ['-'] else []) ++
    natToDecL (cents.natAbs / 100) ++ '.' :: pad2 (cents.natAbs % 100)

/-! ### `common_utils.get_statement_period` -/
/-- Gregorian leap year. -/
def isLeap (y : ℕ) : Bool := (y % 4 == 0 && y % 100 != 0) || y % 400 == 0

/-- Days in a month. -/
def daysInMonth (y m : ℕ) : ℕ :=
  if m == 2 then (if isLeap y then 29 else 28)
  else if m == 4 || m == 6 || m == 9 || m == 11 then 30
  else 31

def isDigitCh (c : Char) : Bool := '0' ≤ c && c ≤ '9'

def digitV (c : Char) : ℕ := c.toNat - 48

/-- Parse the month field of CPython strptime `%m`
(regex 1[0-2] | 0[1-9] | [1-9], longest alternative first), returning the
month value and the unconsumed rest. -/
def parseMonthField : List Char → Option (ℕ × List Char)
  | c1 :: c2 :: rest =>
      if isDigitCh c1 && isDigitCh c2 &&
          ((c1 == '1' && digitV c2 ≤ 2) || (c1 == '0' && 1 ≤ digitV c2)) then
        some (10 * digitV c1 + digitV c2, rest)
      else if isDigitCh c1 && 1 ≤ digitV c1 then some (digitV c1, c2 :: rest)
      else none
  | [c1] => if isDigitCh c1 && 1 ≤ digitV c1 then some (digitV c1, []) else none
  | [] => none

/-- Parse the day field of CPython strptime `%d`
(regex 3[01] | [12]\d | 0[1-9] | [1-9]). -/
def parseDayField : List Char → Option (ℕ × List Char)
  | c1 :: c2 :: rest =>
      if isDigitCh c1 && isDigitCh c2 &&
          ((c1 == '3' && digitV c2 ≤ 1) || (c1 == '1') || (c1 == '2') ||
           (c1 == '0' && 1 ≤ digitV c2)) then
        some (10 * digitV c1 + digitV c2, rest)
      else if isDigitCh c1 && 1 ≤ digitV c1 then some (digitV c1, c2 :: rest)
      else none
  | [c1] => if isDigitCh c1 && 1 ≤ digitV c1 then some (digitV c1, []) else none
  | [] => none

/-- Embedding of `datetime.strptime(date_str, "%Y-%m-%d").date()`: a four
digit year, a dash, a one-or-two digit month, a dash, a one-or-two digit day,
nothing left over, and the triple must be a real calendar date (year at
least 1). Returns `(year, month, day)`. -/
def parseYmd (l : List Char) : Option (ℕ × ℕ × ℕ) :=
  match l with
  | y1 :: y2 :: y3 :: y4 :: '-' :: rest =>
      if isDigitCh y1 && isDigitCh y2 && isDigitCh y3 && isDigitCh y4 then
        let y := 1000 * digitV y1 + 100 * digitV y2 + 10 * digitV y3 + digitV y4
        match parseMonthField rest with
        | some (m, rest2) =>
            match rest2 with
            | '-' :: rest3 =>
                match parseDayField rest3 with
                | some (d, []) =>
                    if 1 ≤ y ∧ 1 ≤ m ∧ m ≤ 12 ∧ 1 ≤ d ∧ d ≤ daysInMonth y m then
                      some (y, m, d)
                    else none
                | _ => none
            | _ => none
        | none => none
      else none
  | _ => none

/-- Embedding of `common_utils.get_statement_period`: empty string when the
date does not parse; otherwise the (year, month) pair moved to the next
month (with December rollover) when the day exceeds the closing day, printed
as Python `f"{year}-{month:02d}"`. -/
def get_statement_period (date_str : String) (closing_day : ℕ) : String :=
  match parseYmd date_str.data with
  | none => ""
  | some (y, m, d) =>
      if d > closing_day then
        let m2 := m + 1
        if m2 > 12 then ⟨natToDecL (y + 1) ++ '-' :: pad2 1⟩
        else ⟨natToDecL y ++ '-' :: pad2 m2⟩
      else ⟨natToDecL y ++ '-' :: pad2 m⟩

/-! ### `domain/transaction.py`: CanonicalTransaction and its content id -/
/-- Embedding of the frozen dataclass `CanonicalTransaction`
(src/src/domain/transaction.py).  The float `amount` is embedded as the
exact number of cents denoted by its two-decimal rendering. -/
structure CanonicalTransaction where
  date : String
  description : String
  amountCents : ℤ
  bank_id : String
  account_id : String
  canonical_account_id : String
  raw_description : String := ""
  normalized_description : String := ""
  source : String := "data"
  rfc : String := ""
deriving DecidableEq

/-- Python `a or b` on strings (left operand unless it is empty). -/
def pyOr (a b : String) : String := if a = "" then b else a

/-- The `(normalized_description or description or "").strip().lower()`
component of the id. -/
def textForId (t : CanonicalTransaction) : List Char :=
  pyLowerL (pyStripL (pyOr t.normalized_description (pyOr t.description "")).data)

/-- The `rfc.strip().lower()` component of the id. -/
def rfcForId (t : CanonicalTransaction) : List Char :=
  pyLowerL (pyStripL t.rfc.data)

/-- Digest input of `CanonicalTransaction.id`: the code feeds this exact
string to SHA-256, so equal inputs give equal ids and (up to SHA-256
collisions) distinct inputs give distinct ids. -/
def idInputL (t : CanonicalTransaction) : List Char :=
  t.bank_id.data ++ ('|' :: (t.account_id.data ++ ('|' ::
    (t.canonical_account_id.data ++ ('|' :: (t.date.data ++ ('|' ::
    (formatCents t.amountCents ++ ('|' :: (textForId t ++ ('|' ::
    rfcForId t)))))))))))

def CanonicalTransaction.idInput (t : CanonicalTransaction) : String :=
  ⟨idInputL t⟩

/-- A sample canonical transaction used by concrete instances. -/
def ctBase : CanonicalTransaction :=
  { date := "2026-01-15", description := "OXXO QRO", amountCents := 100,
    bank_id := "hsbc", account_id := "acc",
    canonical_account_id := "cc:hsbc" }

/-- The sample transaction with a normalized description present. -/
def ctNorm : CanonicalTransaction :=
  { ctBase with amountCents := 0, raw_description := "OXXO QRO 123",
                normalized_description := "Oxxo Qro" }

/-! ### `services/db_service.py`: idempotent persistence -/
/-- Digest input of `DatabaseService.build_source_hash`: the code feeds this
exact string to SHA-256 and stores the digest as the transactions table key.
The float `amount` is embedded as exact cents (the code formats it with
`f"{float(amount):.2f}"`). -/
def build_source_hash_input (bank_id source_file date : String)
    (amountCents : ℤ) (description : String) : String :=
  ⟨bank_id.data ++ ('|' :: (source_file.data ++ ('|' :: (date.data ++ ('|' ::
    (formatCents amountCents ++ ('|' ::
    pyLowerL (pyStripL description.data))))))))⟩

/-- The dictionary handed to `DatabaseService.insert_transaction` (only the
keys that method reads). -/
structure TxnIn where
  source_hash : Option String := none
  date : String
  amountCents : ℤ
  currency : String := "MXN"
  merchant : Option String := none
  description : String := ""
  account_id : String
  canonical_account_id : String
  bank_id : String
  statement_period : Option String := none
  category : Option String := none
  tags : Option String := none
  source_file : String
deriving DecidableEq

/-- A stored row of the transactions table.  The columns mirror the INSERT
statement of `insert_transaction`; `normalized_description` is the extra
schema column that the INSERT leaves empty and the backfill pass fills
(modelled from the spec, the schema file being absent from src/). -/
structure TxnRow where
  source_hash : String
  date : String
  amountCents : ℤ
  currency : String
  merchant : Option String
  description : String
  account_id : String
  canonical_account_id : String
  bank_id : String
  statement_period : Option String
  category : Option String
  tags : Option String
  source_file : String
  import_id : Option ℕ
  normalized_description : String := ""
deriving DecidableEq

/-- A stored row of the accounts table (`upsert_account`). -/
structure Account where
  account_id : String
  display_name : String
  type : String
  bank_id : Option String
  closing_day : Option ℕ
  currency : String
deriving DecidableEq

/-- A stored row of the imports table (`record_import`). -/
structure ImportRec where
  import_id : ℕ
  bank_id : String
  source_file : String
  status : String
  row_count : ℕ
  error : Option String
deriving DecidableEq

/-- The SQLite database, embedded as in-memory tables. -/
structure DBState where
  accounts : List Account := []
  imports : List ImportRec := []
  transactions : List TxnRow := []
deriving DecidableEq

/-- The key under which `insert_transaction` stores a row:
`txn.get("source_hash") or build_source_hash(...)` (a missing or empty
precomputed hash is recomputed). -/
def txnHash (txn : TxnIn) : String :=
  match txn.source_hash with
  | some h =>
      if h = "" then
        build_source_hash_input txn.bank_id txn.source_file txn.date
          txn.amountCents txn.description
      else h
  | none =>
      build_source_hash_input txn.bank_id txn.source_file txn.date
        txn.amountCents txn.description

/-- Modelled from the spec: the transactions table enforces a uniqueness
constraint on `source_hash` (the schema file src/database/schema.sql is not
under src/); `INSERT OR IGNORE` against it is embedded as this presence
check on the stored keys. -/
def hashPresent (st : DBState) (h : String) : Bool :=
  st.transactions.any (fun r => r.source_hash == h)

/-- The row the INSERT statement of `insert_transaction` stores. -/
def mkTxnRow (txn : TxnIn) (import_id : Option ℕ) (h : String) : TxnRow :=
  { source_hash := h, date := txn.date, amountCents := txn.amountCents,
    currency := txn.currency, merchant := txn.merchant,
    description := txn.description, account_id := txn.account_id,
    canonical_account_id := txn.canonical_account_id,
    bank_id := txn.bank_id, statement_period := txn.statement_period,
    category := txn.category, tags := txn.tags,
    source_file := txn.source_file, import_id := import_id,
    normalized_description := "" }

/-- Embedding of `DatabaseService.insert_transaction`: computes (or accepts)
the content hash, is a no-op returning `false` when the hash is already
stored, and otherwise appends the row and returns `true`. -/
def insert_transaction (st : DBState) (txn : TxnIn) (import_id : Option ℕ) :
    DBState × Bool :=
  let h := txnHash txn
  if hashPresent st h then (st, false)
  else ({ st with transactions := st.transactions ++ [mkTxnRow txn import_id h] },
    true)

/-- The per-file insert loop of the migrator / importer: insert every row,
counting the successful inserts. -/
def persistRows (st : DBState) (rows : List TxnIn) (import_id : Option ℕ) :
    DBState × ℕ :=
  match rows with
  | [] => (st, 0)
  | r :: rest =>
      let p := insert_transaction st r import_id
      let q := persistRows p.1 rest import_id
      (q.1, (if p.2 then 1 else 0) + q.2)

/-- A sample two-row source file for concrete persistence runs. -/
def sampleRows : List TxnIn :=
  [{ date := "2026-01-15", amountCents := 0, description := "OXXO QRO",
     account_id := "a", canonical_account_id := "cc:x", bank_id := "hsbc",
     source_file := "f.csv" },
   { date := "2026-01-16", amountCents := 0, description := "SPEI RECIBIDO",
     account_id := "a", canonical_account_id := "cc:x", bank_id := "hsbc",
     source_file := "f.csv" }]

/-- A sample transaction imported from path data/a. -/
def txnPathA : TxnIn :=
  { date := "2026-01-15", amountCents := 0, description := "OXXO QRO",
    account_id := "a", canonical_account_id := "cc:x", bank_id := "hsbc",
    source_file := "data/a/firefly.csv" }

/-! ### `import_hsbc_cfdi_firefly.py`: kind inference -/
/-- Python regex `\w` over the embedded universe (letters, digits,
underscore). -/
def wordChar (c : Char) : Bool := isCasedChar c || c.isDigit || c == '_'

/-- Split a character list into maximal runs of equal word-character
status. -/
def runsSplit : List Char → List (Bool × List Char)
  | [] => []
  | c :: rest =>
      match runsSplit rest with
      | [] => [(wordChar c, [c])]
      | (b, r) :: tl =>
          if b == wordChar c then (b, c :: r) :: tl
          else (wordChar c, [c]) :: (b, r) :: tl

/-- The maximal word-character runs of a string.  A regex
`\b lit \b` with `lit` made of word characters matches somewhere in `l`
exactly when `lit` is one of these runs. -/
def wordRuns (l : List Char) : List (List Char) :=
  (runsSplit l).filterMap (fun p => if p.1 then some p.2 else none)

/-- Substring containment (regex search for a literal with no anchors,
Python `in`). -/
def containsSub (hay pat : List Char) : Bool :=
  (List.range (hay.length + 1)).any
    (fun i => (hay.drop i).take pat.length == pat)

/-- Occurrence of `\b clip \s+ mx \b`: a word run "clip", an all-whitespace
separator, then a word run "mx". -/
def clipMxScan : List (Bool × List Char) → Bool
  | (b1, r1) :: (b2, r2) :: (b3, r3) :: rest =>
      (b1 && !b2 && b3 && r1 == "clip".data && r2.all isSpaceChar &&
        r3 == "mx".data) ||
      clipMxScan ((b2, r2) :: (b3, r3) :: rest)
  | _ => false

/-- Literals of `CHARGE_SERVICE_HINT` (no word boundaries: substring
search). -/
def chargeServiceLits : List String :=
  ["netflix", "spotify", "nintendo", "hbo", "disney", "openai", "chatgpt",
   "duolingo", "google", "youtube"]

/-- Literals of `PAYMENT_HINT` (`\b(pago|abono|payment|pymt|pagos?)\b`). -/
def paymentLits : List String := ["pago", "abono", "payment", "pymt", "pagos"]

/-- Word literals of `PAYMENT_PROCESSOR_HINT` (besides `clip\s+mx`). -/
def processorWordLits : List String :=
  ["mercadopago", "merpago", "paypal", "alipay", "conekta"]

/-- Literals of `REFUND_HINT` (`\b(reembolso|devoluci[oó]n|refund)\b`). -/
def refundLits : List String := ["reembolso", "devolucion", "devolución", "refund"]

/-- Literals of `CASHBACK_HINT` (`\b(cashback|bonificaci[oó]n)\b`). -/
def cashbackLits : List String := ["cashback", "bonificacion", "bonificación"]

/-- `CHARGE_SERVICE_HINT.search(d)`: case-insensitive substring search
embedded as search over the lowercased text. -/
def chargeServiceHit (d : String) : Bool :=
  chargeServiceLits.any (fun lit => containsSub (pyLowerL d.data) lit.data)

def cashbackHit (d : String) : Bool :=
  cashbackLits.any (fun lit => (wordRuns (pyLowerL d.data)).contains lit.data)

def refundHit (d : String) : Bool :=
  refundLits.any (fun lit => (wordRuns (pyLowerL d.data)).contains lit.data)

def paymentHit (d : String) : Bool :=
  paymentLits.any (fun lit => (wordRuns (pyLowerL d.data)).contains lit.data)

def processorHit (d : String) : Bool :=
  processorWordLits.any (fun lit => (wordRuns (pyLowerL d.data)).contains lit.data) ||
    clipMxScan (runsSplit (pyLowerL d.data))

/-- The explicit payment-confirmation check inside the processor branch
(`"SU PAGO GRACIAS" in d.upper() or "GRACIAS SPEI" in d.upper()`). -/
def suPagoHit (d : String) : Bool :=
  containsSub (pyUpperL d.data) "SU PAGO GRACIAS".data ||
    containsSub (pyUpperL d.data) "GRACIAS SPEI".data

/-- Embedding of `infer_kind` (src/src/import_hsbc_cfdi_firefly.py): the
ordered heuristic over charge-service, cashback, refund, processor,
payment, tax-id and amount-sign cues. -/
def infer_kind (d : String) (amountCents : ℤ) (rfc : String) : String :=
  if chargeServiceHit d then "charge"
  else if cashbackHit d then "cashback"
  else if refundHit d then "refund"
  else if processorHit d then
    (if suPagoHit d then "payment" else "charge")
  else if paymentHit d then "payment"
  else if pyStripL rfc.data ≠ [] then "charge"
  else if amountCents < 0 then "charge" else "payment"

/-! ### Shared parsing utilities (`common_utils.py`, `pdf_utils.py`) -/
/-- One collapse pass of `re.sub(r"\s+", " ", ·)` on an already stripped
string: each maximal whitespace run becomes a single space. -/
def collapseRuns : List Char → List Char
  | [] => []
  | c :: rest =>
      if isSpaceChar c then
        match rest with
        | [] => [' ']
        | r :: _ =>
            if isSpaceChar r then collapseRuns rest else ' ' :: collapseRuns rest
      else c :: collapseRuns rest

/-- Embedding of `common_utils.strip_ws` / `_collapse_ws`:
`re.sub(r"\s+", " ", s.strip())`. -/
def collapseWS (l : List Char) : List Char := collapseRuns (pyStripL l)

/-- Grammar accepted by Python `float()` after `parse_money` has filtered the
string down to digits, dots and signs: an optional sign, then digits with at
most one dot and at least one digit. -/
def parseFloatQ (l : List Char) : Option ℚ :=
  let p := match l with
    | '-' :: r => ((-1 : ℚ), r)
    | '+' :: r => ((1 : ℚ), r)
    | r => ((1 : ℚ), r)
  let intPart := p.2.takeWhile isDigitCh
  let rest2 := p.2.dropWhile isDigitCh
  match rest2 with
  | [] => if intPart.isEmpty then none else some (p.1 * decVal intPart)
  | '.' :: fr =>
      if fr.all isDigitCh then
        if intPart.isEmpty && fr.isEmpty then none
        else some (p.1 * ((decVal intPart : ℚ) +
          (decVal fr : ℚ) / (10 : ℚ) ^ fr.length))
      else none
  | _ => none

/-- Embedding of `common_utils.parse_money`: strip, drop currency and
grouping characters (everything but digits, dots and signs survives neither
`replace` nor the `[^\d\.\-+]` substitution), then parse as a float.  The
float is embedded as the exact rational it denotes. -/
def parse_money (s : String) : Option ℚ :=
  let cleaned := (pyStripL s.data).filter
    (fun c => isDigitCh c || c == '.' || c == '-' || c == '+')
  if cleaned.isEmpty then none else parseFloatQ cleaned

/-- Embedding of `parse_iso_date` (both importers): strip; empty stays
empty; otherwise the first ten characters.  (For the extended ISO layouts
this program receives, `datetime.fromisoformat(s).date().isoformat()` equals
`s[:10]`, and the `ValueError` fallback returns `s[:10]` as well.) -/
def parse_iso_date (s : String) : String :=
  let t := pyStripL s.data
  if t.isEmpty then "" else ⟨t.take 10⟩

/-! ### `pdf_utils.parse_mx_date` -/
def isUpperAZ (c : Char) : Bool := 'A' ≤ c && c ≤ 'Z'

/-- The Spanish month table of `parse_mx_date`. -/
def monthTable : List (String × String) :=
  [("ENE", "01"), ("ENERO", "01"), ("FEB", "02"), ("FEBRERO", "02"),
   ("MAR", "03"), ("MARZO", "03"), ("ABR", "04"), ("ABRIL", "04"),
   ("MAY", "05"), ("MAYO", "05"), ("JUN", "06"), ("JUNIO", "06"),
   ("JUL", "07"), ("JULIO", "07"), ("AGO", "08"), ("AGOSTO", "08"),
   ("SEP", "09"), ("SET", "09"), ("SEPTIEMBRE", "09"),
   ("OCT", "10"), ("OCTUBRE", "10"), ("NOV", "11"), ("NOVIEMBRE", "11"),
   ("DIC", "12"), ("DICIEMBRE", "12")]

def monthLookup (k : String) : Option String :=
  (monthTable.find? (fun p => p.1 == k)).map (fun p => p.2)

/-- Range check and output of the ISO branch of `parse_mx_date`
(`f"{yr}-{month:02d}-{day:02d}"`); out-of-range values fall through to the
next format. -/
def isoOut (yr m d : ℕ) : Option String :=
  if 1 ≤ d ∧ d ≤ 31 ∧ 1 ≤ m ∧ m ≤ 12 then
    some ⟨natToDecL yr ++ '-' :: (pad2 m ++ '-' :: pad2 d)⟩
  else none

/-- Day part (a slash-or-dash separator then `\d{1,2}`, greedy, no trailing anchor) of the ISO
branch. -/
def isoDay (yr m : ℕ) : List Char → Option String
  | d1 :: d2 :: _ =>
      if isDigitCh d1 && isDigitCh d2 then
        isoOut yr m (10 * digitV d1 + digitV d2)
      else if isDigitCh d1 then isoOut yr m (digitV d1)
      else none
  | [d1] => if isDigitCh d1 then isoOut yr m (digitV d1) else none
  | [] => none

/-- The year, month and day branch of `parse_mx_date` (four digits, a slash-or-dash separator, one or two digits, a separator, one or two digits). -/
def tryIsoFmt : List Char → Option String
  | y1 :: y2 :: y3 :: y4 :: c5 :: rest =>
      if isDigitCh y1 && isDigitCh y2 && isDigitCh y3 && isDigitCh y4 &&
          (c5 == '/' || c5 == '-') then
        let yr := 1000 * digitV y1 + 100 * digitV y2 + 10 * digitV y3 + digitV y4
        match rest with
        | m1 :: m2 :: c6 :: rest2 =>
            if isDigitCh m1 && isDigitCh m2 && (c6 == '/' || c6 == '-') then
              isoDay yr (10 * digitV m1 + digitV m2) rest2
            else if isDigitCh m1 && (m2 == '/' || m2 == '-') then
              isoDay yr (digitV m1) (c6 :: rest2)
            else none
        | _ => none
      else none
  | _ => none

/-- The `(\d{1,2})\s*([A-Z]{3,10})` branch: outer `none` means the pattern
did not match (fall through to the next format); `some r` means it matched
and the function returns `r` (possibly `None` for a bad day or unknown
month). -/
def tryDayMonFmt (s : List Char) (year : ℕ) : Option (Option String) :=
  let d := s.takeWhile isDigitCh
  if d.length = 0 || d.length > 2 then none
  else
    let rest := (s.drop d.length).dropWhile isSpaceChar
    let letters := rest.takeWhile isUpperAZ
    if letters.length < 3 then none
    else some (
      let day := decVal d
      if day < 1 || 31 < day then none
      else
        match monthLookup ⟨letters.take 10⟩ with
        | none => none
        | some mm => some ⟨natToDecL year ++ '-' :: (mm.data ++ '-' :: pad2 day)⟩)

/-- The day, month, two-or-four-digit-year branch (one or two digits, optional spaces, a slash-or-dash separator, and so on). -/
def tryDmyFmt (s : List Char) : Option String :=
  let d := s.takeWhile isDigitCh
  if d.length = 0 || d.length > 2 then none
  else
    match (s.drop d.length).dropWhile isSpaceChar with
    | sep1 :: rest1 =>
        if sep1 == '/' || sep1 == '-' then
          let rest1b := rest1.dropWhile isSpaceChar
          let m := rest1b.takeWhile isDigitCh
          if m.length = 0 || m.length > 2 then none
          else
            match (rest1b.drop m.length).dropWhile isSpaceChar with
            | sep2 :: rest2 =>
                if sep2 == '/' || sep2 == '-' then
                  let rest2b := rest2.dropWhile isSpaceChar
                  let y := rest2b.takeWhile isDigitCh
                  if y.length < 2 then none
                  else
                    let day := decVal d
                    let mon := decVal m
                    let yr0 := decVal (y.take 4)
                    if day < 1 || 31 < day then none
                    else if mon < 1 || 12 < mon then none
                    else
                      let yr := if yr0 < 100 then yr0 + 2000 else yr0
                      some ⟨natToDecL yr ++ '-' :: (pad2 mon ++ '-' :: pad2 day)⟩
                else none
            | [] => none
        else none
    | [] => none

/-- Embedding of `pdf_utils.parse_mx_date`: uppercase and strip, then try
the ISO, day-month-name and day/month/year formats in order. -/
def parse_mx_date (date_str : String) (year : ℕ) : Option String :=
  let s := pyStripL (pyUpperL date_str.data)
  match tryIsoFmt s with
  | some r => some r
  | none =>
      match tryDayMonFmt s year with
      | some res => res
      | none => tryDmyFmt s

/-! ### `generic_importer.py`: `load_data` -/
/-- Embedding of the generic importer's `TxnRaw` dataclass.  The float
amount is embedded as the exact rational it denotes. -/
structure GenTxnRaw where
  date : String
  description : String
  amount : ℚ
  rfc : String := ""
  account_hint : String := ""
  source : String := "data"
  page : ℕ := 0
  source_line : String := ""
deriving DecidableEq

/-- One row of `pdf_utils.extract_transactions_from_pdf` output (the keys
`load_data` reads). -/
structure PdfRowIn where
  raw_date : String
  description : String
  amount : ℚ
deriving DecidableEq

/-- The PDF/OCR branch of `GenericImporter.load_data`: parse each raw date
with the current year and keep the parsed rows, in extraction order. -/
def loadDataPdf (rows : List PdfRowIn) (year : ℕ) : List GenTxnRaw :=
  rows.filterMap (fun pt =>
    match parse_mx_date pt.raw_date year with
    | some iso =>
        if iso ≠ "" then
          some { date := iso, description := pt.description,
                 amount := pt.amount, source := "pdf" }
        else none
    | none => none)

/-- Code-point lexicographic comparison of character lists (Python string
comparison). -/
def cmpChars : List Char → List Char → Ordering
  | [], [] => .eq
  | [], _ :: _ => .lt
  | _ :: _, [] => .gt
  | a :: as, b :: bs =>
      if a.toNat < b.toNat then .lt
      else if b.toNat < a.toNat then .gt
      else cmpChars as bs

def cmpZ (x y : ℤ) : Ordering :=
  if x < y then .lt else if x = y then .eq else .gt

def cmpQ (x y : ℚ) : Ordering :=
  if x < y then .lt else if x = y then .eq else .gt

/-- Lexicographic combination of comparators on a pair. -/
def cmpLex {α β : Type} (ca : α → α → Ordering) (cb : β → β → Ordering)
    (x y : α × β) : Ordering :=
  (ca x.1 y.1).then (cb x.2 y.2)

/-- A comparator that decides equality, is antisymmetric under `swap`, and
has transitive strict order — what Python tuple/str comparison provides. -/
def LawfulCmp {α : Type} (cmp : α → α → Ordering) : Prop :=
  (∀ a b, cmp a b = .eq ↔ a = b) ∧
  (∀ a b, cmp b a = (cmp a b).swap) ∧
  (∀ a b c, cmp a b = .lt → cmp b c = .lt → cmp a c = .lt)

/-- Non-strict comparison derived from a comparator (`sorted` ascending
order). -/
def cmpLe {α : Type} (cmp : α → α → Ordering) (a b : α) : Bool :=
  match cmp a b with
  | .gt => false
  | _ => true

/-- The sort key of the non-PDF return of `load_data`:
`(t.date, t.description.lower(), round(float(t.amount), 2), t.rfc)`.
Rounding to two decimals is embedded as rounding cents to an integer
(order-isomorphic to the rounded float value). -/
def genKeyOf (t : GenTxnRaw) : List Char × (List Char × (ℤ × List Char)) :=
  (t.date.data, (pyLowerL t.description.data,
    ((round ((100 : ℚ) * t.amount) : ℤ), t.rfc.data)))

def genCmp : (List Char × (List Char × (ℤ × List Char))) →
    (List Char × (List Char × (ℤ × List Char))) → Ordering :=
  cmpLex cmpChars (cmpLex cmpChars (cmpLex cmpZ cmpChars))

def genKeyLe (a b : GenTxnRaw) : Bool := cmpLe genCmp (genKeyOf a) (genKeyOf b)

/-- Embedding of `GenericImporter.load_data`.  `pdfSource` is
`use_pdf_source and pdf_path` together with the rows the PDF extractor
produced; `dataLoaded` is `data_path` together with the rows the
xml/xlsx/generic loader dispatch produced (those loaders do file IO and are
parameterized). -/
def load_data (pdfSource : Option (List PdfRowIn)) (year : ℕ)
    (dataLoaded : Option (List GenTxnRaw)) : List GenTxnRaw :=
  match pdfSource with
  | some rows => loadDataPdf rows year
  | none =>
      match dataLoaded with
      | none => []
      | some txns => txns.mergeSort genKeyLe

/-! ### `import_hsbc_cfdi_firefly.py`: XML reader -/
/-- An XML element tree (tag, attributes, children). -/
inductive XmlElem where
  | mk (tag : String) (attrib : List (String × String)) (children : List XmlElem)

def XmlElem.tag : XmlElem → String
  | .mk t _ _ => t

def XmlElem.attrib : XmlElem → List (String × String)
  | .mk _ a _ => a

def XmlElem.children : XmlElem → List XmlElem
  | .mk _ _ c => c

/-- Python `e.attrib.get(k, "")`. -/
def attrGet (attrs : List (String × String)) (k : String) : String :=
  match attrs.find? (fun p => p.1 == k) with
  | some p => p.2
  | none => ""

/-- Python `tag.split("}")[-1]` (namespace removal). -/
def localTag (t : String) : String :=
  match (t.splitOn "\x7d").getLast? with
  | some x => x
  | none => t

mutual

/-- The recursive `iter_all` walk: the element followed by all
descendants, depth first in document order. -/
def iterAll : XmlElem → List XmlElem
  | .mk t a cs => .mk t a cs :: iterAllL cs

def iterAllL : List XmlElem → List XmlElem
  | [] => []
  | e :: es => iterAll e ++ iterAllL es

end

/-- Embedding of `get_datos_generales`: the attributes of the first direct
child tagged DatosGenerales. -/
def get_datos_generales (addenda : XmlElem) : List (String × String) :=
  match addenda.children.find? (fun c => localTag c.tag == "DatosGenerales") with
  | some c => c.attrib
  | none => []

/-- Embedding of the HSBC importer's `TxnRaw` dataclass. -/
structure HsbcTxnRaw where
  date : String
  description : String
  amount : ℚ
  rfc : String
  account_hint : String
  source : String := "xml"
  page : ℕ := 0
  source_line : String := ""
deriving DecidableEq

/-- The sort key of `extract_movimientos`:
`(t.date, t.description, t.amount, t.rfc)`. -/
def hsbcKeyOf (t : HsbcTxnRaw) : List Char × (List Char × (ℚ × List Char)) :=
  (t.date.data, (t.description.data, (t.amount, t.rfc.data)))

def hsbcCmp : (List Char × (List Char × (ℚ × List Char))) →
    (List Char × (List Char × (ℚ × List Char))) → Ordering :=
  cmpLex cmpChars (cmpLex cmpChars (cmpLex cmpQ cmpChars))

def hsbcKeyLe (a b : HsbcTxnRaw) : Bool :=
  cmpLe hsbcCmp (hsbcKeyOf a) (hsbcKeyOf b)

/-- One record extraction step of `extract_movimientos`. -/
def hsbcRecord (account_hint : String) (e : XmlElem) : Option HsbcTxnRaw :=
  let tag := localTag e.tag
  if tag == "MovimientosDelCliente" then
    let date := parse_iso_date (attrGet e.attrib "fecha")
    let desc : String := ⟨collapseWS (attrGet e.attrib "descripcion").data⟩
    match parse_money (attrGet e.attrib "importe") with
    | some amt =>
        if date ≠ "" ∧ desc ≠ "" then
          some { date := date, description := desc, amount := amt, rfc := "",
                 account_hint := account_hint }
        else none
    | none => none
  else if tag == "MovimientoDelClienteFiscal" then
    let date := parse_iso_date (attrGet e.attrib "fecha")
    let desc : String := ⟨collapseWS (attrGet e.attrib "descripcion").data⟩
    let rfc : String := ⟨pyStripL (attrGet e.attrib "RFCenajenante").data⟩
    match parse_money (attrGet e.attrib "importe") with
    | some amt =>
        if date ≠ "" ∧ desc ≠ "" then
          some { date := date, description := desc, amount := amt, rfc := rfc,
                 account_hint := account_hint }
        else none
    | none => none
  else none

/-- Embedding of `extract_movimientos`: walk all descendants of the
addenda, extract the two record shapes, and sort by
(date, description, amount, rfc). -/
def extract_movimientos (addenda : XmlElem) : List HsbcTxnRaw :=
  let datos := get_datos_generales addenda
  let account_hint : String := ⟨pyStripL (attrGet datos "numerodecuenta").data⟩
  ((iterAll addenda).filterMap (hsbcRecord account_hint)).mergeSort hsbcKeyLe

/-- A two-row PDF extraction whose rows arrive in reverse date order. -/
def pdfRowsUnsorted : List PdfRowIn :=
  [{ raw_date := "13 FEB", description := "B", amount := 0 },
   { raw_date := "12 ENE", description := "A", amount := 0 }]

/-! ### `import_hsbc_cfdi_firefly.py`: the cross-source reconciler -/
/-- Embedding of `txn_match_key`: `(txn.date, round(abs(txn.amount), 2))`.
The rounded two-decimal float is embedded as its integer number of cents
(key equality is preserved). -/
def txn_match_key (t : HsbcTxnRaw) : String × ℤ :=
  (t.date, round ((100 : ℚ) * |t.amount|))

/-- A recorded divergence between a matched PDF/XML pair. -/
structure DiffEntry where
  date : String
  pdf_amount : ℚ
  xml_amount : ℚ
  pdf_desc : String
  xml_desc : String
deriving DecidableEq

/-- The merged row built on a reconciler hit: the primary (PDF) row's date,
amount and source; its description unless empty (then the XML one); tax id
and account hint from the XML row unless the XML row lacks them. -/
def mkMerged (pdf xml : HsbcTxnRaw) : HsbcTxnRaw :=
  { date := pdf.date,
    description := if pdf.description = "" then xml.description else pdf.description,
    amount := pdf.amount,
    rfc := if xml.rfc = "" then pdf.rfc else xml.rfc,
    account_hint := if xml.account_hint = "" then pdf.account_hint
      else xml.account_hint,
    source := pdf.source }

/-- The difference test of the reconciler: case-insensitive mismatch of the
whitespace-collapsed descriptions, or amounts more than 0.01 apart. -/
def diffCond (pdf xml : HsbcTxnRaw) : Bool :=
  !(pyLowerL (collapseWS pdf.description.data) ==
      pyLowerL (collapseWS xml.description.data)) ||
    decide (|pdf.amount - xml.amount| > 1 / 100)

def mkDiff (pdf xml : HsbcTxnRaw) : DiffEntry :=
  { date := pdf.date, pdf_amount := pdf.amount, xml_amount := xml.amount,
    pdf_desc := ⟨collapseWS pdf.description.data⟩,
    xml_desc := ⟨collapseWS xml.description.data⟩ }

/-- The `defaultdict` bucket of XML rows (with their indices) sharing a
match key, in original order. -/
def bucketFor (xmlE : List (ℕ × HsbcTxnRaw)) (k : String × ℤ) :
    List (ℕ × HsbcTxnRaw) :=
  xmlE.filter (fun p => txn_match_key p.2 == k)

/-- Pop the first bucket entry whose index is not yet consumed. -/
def findCandidate (xmlE : List (ℕ × HsbcTxnRaw)) (used : List ℕ)
    (k : String × ℤ) : Option (ℕ × HsbcTxnRaw) :=
  (bucketFor xmlE k).find? (fun p => !(used.contains p.1))

/-- The main loop of `apply_xml_reference_to_pdf`, returning
(merged, pdf_only, differences, used indices). -/
def reconGo (xmlE : List (ℕ × HsbcTxnRaw)) :
    List HsbcTxnRaw → List ℕ →
      List HsbcTxnRaw × List HsbcTxnRaw × List DiffEntry × List ℕ
  | [], used => ([], [], [], used)
  | p :: rest, used =>
      match findCandidate xmlE used (txn_match_key p) with
      | some c =>
          let r := reconGo xmlE rest (c.1 :: used)
          (mkMerged p c.2 :: r.1, r.2.1,
            (if diffCond p c.2 then [mkDiff p c.2] else []) ++ r.2.2.1, r.2.2.2)
      | none =>
          let r := reconGo xmlE rest used
          (p :: r.1, p :: r.2.1, r.2.2.1, r.2.2.2)

/-- The reconciliation summary dictionary. -/
structure ReconSummary where
  matched : ℕ
  total_pdf : ℕ
  total_xml : ℕ
  pdf_only : List HsbcTxnRaw
  xml_only : List HsbcTxnRaw
  differences : List DiffEntry
deriving DecidableEq

/-- Embedding of `apply_xml_reference_to_pdf`. -/
def apply_xml_reference_to_pdf (pdf xml : List HsbcTxnRaw) :
    List HsbcTxnRaw × ReconSummary :=
  let r := reconGo xml.enum pdf []
  let xml_only := (xml.enum.filter (fun p => !(r.2.2.2.contains p.1))).map
    (fun p => p.2)
  (r.1,
    { matched := pdf.length - r.2.1.length, total_pdf := pdf.length,
      total_xml := xml.length, pdf_only := r.2.1, xml_only := xml_only,
      differences := r.2.2.1 })

def pdfRow1C5 : HsbcTxnRaw :=
  { date := "2024-01-05", description := "OXXO MX", amount := 5,
    rfc := "", account_hint := "", source := "pdf" }

def pdfRow2C5 : HsbcTxnRaw :=
  { date := "2024-01-06", description := "UBER", amount := 7,
    rfc := "", account_hint := "", source := "pdf" }

def xmlRow1C5 : HsbcTxnRaw :=
  { date := "2024-01-05", description := "oxxo mx", amount := 5,
    rfc := "RFCX", account_hint := "1234", source := "xml" }

def pdfC5 : List HsbcTxnRaw := [pdfRow1C5, pdfRow2C5]

def xmlC5 : List HsbcTxnRaw := [xmlRow1C5]

def pC6w : HsbcTxnRaw :=
  { date := "2024-03-01", description := "CAFE X", amount := 3,
    rfc := "", account_hint := "H1", source := "pdf" }

def xC6w : HsbcTxnRaw :=
  { date := "2024-03-01", description := "BAR Y", amount := 3,
    rfc := "RFC9", account_hint := "", source := "xml" }

def pC6c : HsbcTxnRaw :=
  { date := "2024-04-02", description := "", amount := 9,
    rfc := "PRFC", account_hint := "PH", source := "pdf" }

def xC6c : HsbcTxnRaw :=
  { date := "2024-04-02", description := "TIENDA Z", amount := 9,
    rfc := "XRFC", account_hint := "XH", source := "xml" }

/-! ### `description_normalizer.py`
The normalizer's characters all lie in the embedded universe (ASCII plus
the accented Spanish letters of the tables), over which Unicode NFKC
normalization (`_normalize_unicode`) is the identity; it is therefore
dropped from the embedding. -/
/-- The separator class `[ \t]` of the tokenizing `re.split`. -/
def isSepChar (c : Char) : Bool := c == ' ' || c == '\t'

/-- The character class of `_NOISE_RX` (`^[\d\-_/]+$`), with `\d` the
decimal digits of the embedded universe. -/
def isNoiseChar (c : Char) : Bool :=
  isDigitCh c || c == '-' || c == '_' || c == '/'

/-- `_NOISE_RX.match raw`: nonempty and entirely in the noise class. -/
def noiseTok (l : List Char) : Bool := !(l.isEmpty) && l.all isNoiseChar

/-- Python `str.isdigit`: nonempty and all decimal digits. -/
def allDigits (l : List Char) : Bool := !(l.isEmpty) && l.all isDigitCh

/-- The `_ABBREVIATIONS` mapping, in insertion order. -/
def abbrevPairs : List (List Char × List Char) :=
  [("TRANSF".data, "Transferencia".data),
   ("TRANSFER".data, "Transferencia".data),
   ("DEBITO".data, "Débito".data),
   ("CREDITO".data, "Crédito".data),
   ("COMISION".data, "Comisión".data),
   ("MERPAGO".data, "MercadoPago".data),
   ("MERCADOPAGO".data, "MercadoPago".data),
   ("MERCADO".data, "Mercado".data),
   ("PAGO".data, "Pago".data)]

/-- The `_ACCENT_RESTORATION` mapping. -/
def accentPairs : List (List Char × List Char) :=
  [("DEBITO".data, "Débito".data),
   ("CREDITO".data, "Crédito".data),
   ("COMISION".data, "Comisión".data),
   ("INTERES".data, "Interés".data),
   ("NOMINA".data, "Nómina".data)]

/-- The `_ACRONYMS` set. -/
def acronymsL : List (List Char) :=
  ["SPEI".data, "RFC".data, "IVA".data, "ATM".data, "PIN".data, "CVV".data,
   "SAT".data, "CFE".data]

def abbrevLookup (u : List Char) : Option (List Char) :=
  (abbrevPairs.find? (fun p => p.1 == u)).map (fun p => p.2)

def accentLookup (u : List Char) : Option (List Char) :=
  (accentPairs.find? (fun p => p.1 == u)).map (fun p => p.2)

/-- One iteration of the cleaning loop of `normalize_tokens`: `none` when
the token is skipped (`continue`), otherwise the appended token. -/
def classifyTok (tok : List Char) : Option (List Char) :=
  if (pyStripL tok).isEmpty then none
  else if noiseTok (pyStripL tok) then none
  else if decide (12 ≤ (pyStripL tok).length) && allDigits (pyStripL tok) then
    none
  else
    match abbrevLookup (pyUpperL (pyStripL tok)) with
    | some v => some v
    | none =>
        match accentLookup (pyUpperL (pyStripL tok)) with
        | some v => some v
        | none =>
            if acronymsL.contains (pyUpperL (pyStripL tok)) then
              some (pyUpperL (pyStripL tok))
            else some (pyTitleL (pyStripL tok))

/-- The merge test of the MercadoPago canonicalization:
`cur.lower() == "mercado" and nxt.lower() == "pago"`. -/
def mpCond (a b : List Char) : Bool :=
  pyLowerL a == "mercado".data && pyLowerL b == "pago".data

/-- The MercadoPago canonicalization loop (advances by two on a merge). -/
def mergeMP : List (List Char) → List (List Char)
  | [] => []
  | [a] => [a]
  | a :: b :: rest2 =>
      if mpCond a b then "MercadoPago".data :: mergeMP rest2
      else a :: mergeMP (b :: rest2)

/-- The trailing-noise pop loop:
`while out and (_NOISE_RX.match(out[-1]) or out[-1].isdigit()): out.pop()`. -/
def trimNoise : List (List Char) → List (List Char)
  | [] => []
  | a :: rest =>
      match trimNoise rest with
      | [] => if noiseTok a || allDigits a then [] else [a]
      | r => a :: r

/-- `" ".join`. -/
def joinSp : List (List Char) → List Char
  | [] => []
  | [a] => a
  | a :: b :: rest => a ++ ' ' :: joinSp (b :: rest)

/-- `re.split(r"[ \t]+", ·)`: fields between separator runs, with an empty
field at a leading or trailing separator (and `[""]` on empty input). -/
def splitSp : List Char → List (List Char)
  | [] => [[]]
  | c :: rest =>
      if isSepChar c then
        match rest with
        | [] => [] :: splitSp rest
        | d :: _ => if isSepChar d then splitSp rest else [] :: splitSp rest
      else
        match splitSp rest with
        | [] => [[c]]
        | t :: ts => (c :: t) :: ts

/-- Embedding of `normalize_tokens` (the `bank_id` hook is unused). -/
def normalize_tokens (toks : List (List Char)) : List (List Char) :=
  trimNoise (mergeMP (toks.filterMap classifyTok))

/-- Embedding of `normalize_description`. -/
def normalize_description (raw : String) : String :=
  if (collapseWS raw.data).isEmpty then ""
  else
    ⟨joinSp (normalize_tokens (splitSp (pyUpperL (collapseWS raw.data))))⟩

def stableTokB (t : List Char) : Bool :=
  (classifyTok (pyUpperL t) == some t) && !(t.isEmpty) &&
    t.all (fun c => !(isSpaceChar c))

/-! ### `csv_to_db_migrator.py`: the migration run -/
/-- Embedding of `DatabaseService.record_import`: appends an import row and
returns its id (`cur.lastrowid`, embedded as one past the current count). -/
def record_import (st : DBState) (bank_id source_file status : String)
    (row_count : ℕ) (error : Option String) : DBState × ℕ :=
  ({ st with imports := st.imports ++
      [{ import_id := st.imports.length + 1, bank_id := bank_id,
         source_file := source_file, status := status,
         row_count := row_count, error := error }] },
    st.imports.length + 1)

/-- Embedding of `DatabaseService.update_import_status`: sets the status and
COALESCEs the row count and error onto the matching import row. -/
def update_import_status (st : DBState) (import_id : ℕ) (status : String)
    (row_count : Option ℕ) (error : Option String) : DBState :=
  { st with imports := st.imports.map (fun r =>
      if r.import_id = import_id then
        { r with
          status := status,
          row_count := row_count.getD r.row_count,
          error := match error with
            | some x => some x
            | none => r.error }
      else r) }

/-- Embedding of `DatabaseService.upsert_account`
(`ON CONFLICT(account_id) DO UPDATE` of every column). -/
def upsert_account (st : DBState) (a : Account) : DBState :=
  if st.accounts.any (fun r => r.account_id == a.account_id) then
    { st with accounts := st.accounts.map (fun r =>
        if r.account_id == a.account_id then a else r) }
  else { st with accounts := st.accounts ++ [a] }

/-- Modelled from the spec: `backfill_normalized_descriptions` (whose
implementation is not under src/) recomputes and persists normalized text
for stored rows whose normalized field is empty, leaving every other field
of every row unchanged, and returns the number of rows it touched. -/
def backfill_normalized_descriptions (st : DBState) (f : String → String) :
    DBState × ℕ :=
  ({ st with transactions := st.transactions.map (fun r =>
      if r.normalized_description = "" then
        { r with normalized_description := f r.description }
      else r) },
    (st.transactions.filter (fun r => r.normalized_description == "")).length)

/-- One iteration of the migrator's row loop, after the pure conversions:
either the upsert-account/build-transaction data, or an exception raised
while converting the row (e.g. by `float(...)`). -/
inductive RowStep where
  | ok (acct : Account) (txn : TxnIn) : RowStep
  | err (msg : String) : RowStep
deriving DecidableEq

/-- A CSV file as the migrator sees it: its path, whether it exists, the
bank id inferred from its path, and the outcome of reading it (an
exception message, or the row steps). -/
structure FileInput where
  path : String
  present : Bool
  bank_id : String
  read : Except String (List RowStep)

/-- The row loop of one file: returns the state, the number of rows seen,
the rows inserted for the file, and the exception that aborted the loop,
if any.  Rows seen counts the failing row (the counter is incremented
before the conversions). -/
def runRows (st : DBState) (iid : ℕ) :
    List RowStep → DBState × ℕ × ℕ × Option String
  | [] => (st, 0, 0, none)
  | RowStep.err m :: _ => (st, 1, 0, some m)
  | RowStep.ok a t :: rest =>
      let st1 := upsert_account st a
      let p := insert_transaction st1 t (some iid)
      let q := runRows p.1 iid rest
      (q.1, 1 + q.2.1, (if p.2 then 1 else 0) + q.2.2.1, q.2.2.2)

/-- One iteration of the migrator's file loop: skip a missing file; record
a "started" import; on any exception mark the record "failed" with the
message and move on; on success mark it "success" with the file's insert
count.  Returns (state, files-processed, rows-seen, rows-inserted)
deltas. -/
def processFile (st : DBState) (f : FileInput) : DBState × ℕ × ℕ × ℕ :=
  if !f.present then (st, 0, 0, 0)
  else
    let r := record_import st f.bank_id f.path "started" 0 none
    match f.read with
    | Except.error e =>
        (update_import_status r.1 r.2 "failed" none (some e), 0, 0, 0)
    | Except.ok rows =>
        let q := runRows r.1 r.2 rows
        match q.2.2.2 with
        | some e =>
            (update_import_status q.1 r.2 "failed" none (some e),
              0, q.2.1, q.2.2.1)
        | none =>
            (update_import_status q.1 r.2 "success" (some q.2.2.1) none,
              1, q.2.1, q.2.2.1)

def migrateStep (acc : DBState × ℕ × ℕ × ℕ) (file : FileInput) :
    DBState × ℕ × ℕ × ℕ :=
  ((processFile acc.1 file).1,
    acc.2.1 + (processFile acc.1 file).2.1,
    acc.2.2.1 + (processFile acc.1 file).2.2.1,
    acc.2.2.2 + (processFile acc.1 file).2.2.2)

/-- Embedding of `migrate_csvs_to_db` after the account seeding: fold the
file loop over the files, run the backfill pass, and return the summary
dictionary (as an association list in the literal's key order). -/
def migrate (st0 : DBState) (files : List FileInput) (f : String → String) :
    DBState × List (String × ℕ) :=
  ((backfill_normalized_descriptions
      (files.foldl migrateStep (st0, 0, 0, 0)).1 f).1,
    [("files_processed", (files.foldl migrateStep (st0, 0, 0, 0)).2.1),
     ("rows_seen", (files.foldl migrateStep (st0, 0, 0, 0)).2.2.1),
     ("rows_inserted", (files.foldl migrateStep (st0, 0, 0, 0)).2.2.2),
     ("rows_backfilled", (backfill_normalized_descriptions
        (files.foldl migrateStep (st0, 0, 0, 0)).1 f).2)])

def fileC4 : FileInput :=
  { path := "data/hsbc/firefly_hsbc.csv", present := true,
    bank_id := "hsbc", read := Except.error "bad csv" }

/-- Facts about the case table used to lift concrete table entries to
universally quantified characterwise lemmas. -/
theorem caseTable_facts :
    caseTable.all (fun p =>
      upperChar p.1 == p.2 && upperChar p.2 == p.2 &&
      lowerChar p.2 == p.1 && lowerChar p.1 == p.1 &&
      !isSpaceChar p.1 && !isSpaceChar p.2 &&
      isCasedChar p.1 && isCasedChar p.2) = true := by decide

theorem caseTable_fact_of_mem {p : Char × Char} (h : p ∈ caseTable) :
    upperChar p.1 = p.2 ∧ upperChar p.2 = p.2 ∧
    lowerChar p.2 = p.1 ∧ lowerChar p.1 = p.1 ∧
    isSpaceChar p.1 = false ∧ isSpaceChar p.2 = false ∧
    isCasedChar p.1 = true ∧ isCasedChar p.2 = true := by
  have := List.all_eq_true.mp caseTable_facts p h
  simp only [Bool.and_eq_true, beq_iff_eq, Bool.not_eq_true'] at this
  tauto

theorem upperChar_eq_of_find?_none {c : Char}
    (h : caseTable.find? (fun p => p.1 == c) = none) : upperChar c = c := by
  unfold upperChar
  rw [h]

theorem lowerChar_eq_of_find?_none {c : Char}
    (h : caseTable.find? (fun p => p.2 == c) = none) : lowerChar c = c := by
  unfold lowerChar
  rw [h]

theorem upperChar_eq_of_find?_some {c : Char} {p : Char × Char}
    (h : caseTable.find? (fun p => p.1 == c) = some p) : upperChar c = p.2 := by
  unfold upperChar
  rw [h]

theorem lowerChar_eq_of_find?_some {c : Char} {p : Char × Char}
    (h : caseTable.find? (fun p => p.2 == c) = some p) : lowerChar c = p.1 := by
  unfold lowerChar
  rw [h]

theorem upperChar_idem (c : Char) : upperChar (upperChar c) = upperChar c := by
  cases h : caseTable.find? (fun p => p.1 == c) with
  | none =>
      rw [upperChar_eq_of_find?_none h, upperChar_eq_of_find?_none h]
  | some p =>
      have hm : p ∈ caseTable := List.mem_of_find?_eq_some h
      rw [upperChar_eq_of_find?_some h, (caseTable_fact_of_mem hm).2.1]

theorem upperChar_lowerChar (c : Char) :
    upperChar (lowerChar c) = upperChar c := by
  cases h : caseTable.find? (fun p => p.2 == c) with
  | none => rw [lowerChar_eq_of_find?_none h]
  | some p =>
      have hm : p ∈ caseTable := List.mem_of_find?_eq_some h
      have hc : p.2 = c := by
        have := List.find?_some h
        simpa using this
      rw [lowerChar_eq_of_find?_some h, (caseTable_fact_of_mem hm).1, ← hc,
        (caseTable_fact_of_mem hm).2.1]

theorem isSpaceChar_upperChar (c : Char) :
    isSpaceChar (upperChar c) = isSpaceChar c := by
  cases h : caseTable.find? (fun p => p.1 == c) with
  | none => rw [upperChar_eq_of_find?_none h]
  | some p =>
      have hm : p ∈ caseTable := List.mem_of_find?_eq_some h
      have hc : p.1 = c := by
        have := List.find?_some h
        simpa using this
      rw [upperChar_eq_of_find?_some h, (caseTable_fact_of_mem hm).2.2.2.2.2.1,
        ← hc, (caseTable_fact_of_mem hm).2.2.2.2.1]

theorem isSpaceChar_lowerChar (c : Char) :
    isSpaceChar (lowerChar c) = isSpaceChar c := by
  cases h : caseTable.find? (fun p => p.2 == c) with
  | none => rw [lowerChar_eq_of_find?_none h]
  | some p =>
      have hm : p ∈ caseTable := List.mem_of_find?_eq_some h
      have hc : p.2 = c := by
        have := List.find?_some h
        simpa using this
      rw [lowerChar_eq_of_find?_some h, (caseTable_fact_of_mem hm).2.2.2.2.1,
        ← hc, (caseTable_fact_of_mem hm).2.2.2.2.2.1]

theorem pyStripL_sub {l : List Char} {c : Char} (h : c ∈ pyStripL l) :
    c ∈ l := by
  unfold pyStripL at h
  have h1 := List.mem_reverse.mp h
  have h2 := List.dropWhile_sublist (l := (l.dropWhile isSpaceChar).reverse)
    (p := isSpaceChar)
  have h3 : c ∈ (l.dropWhile isSpaceChar).reverse := h2.mem h1
  have h4 := List.mem_reverse.mp h3
  exact (List.dropWhile_sublist (l := l) (p := isSpaceChar)).mem h4

theorem pyUpperL_idem (l : List Char) : pyUpperL (pyUpperL l) = pyUpperL l := by
  unfold pyUpperL
  rw [List.map_map]
  exact List.map_congr_left fun c _ => upperChar_idem c

theorem pyUpperL_pyTitleGo (b : Bool) (l : List Char) :
    pyUpperL (pyTitleGo b l) = pyUpperL l := by
  induction l generalizing b with
  | nil => rfl
  | cons c rest ih =>
      unfold pyTitleGo
      by_cases hc : isCasedChar c
      · cases b
        · simp only [hc, if_true, Bool.false_eq_true, if_false, pyUpperL,
            List.map_cons]
          rw [upperChar_idem]
          exact congrArg _ (ih true)
        · simp only [hc, if_true, pyUpperL, List.map_cons]
          rw [upperChar_lowerChar]
          exact congrArg _ (ih true)
      · simp only [hc, Bool.false_eq_true, if_false, pyUpperL, List.map_cons]
        exact congrArg _ (ih false)

theorem pyUpperL_pyTitleL (l : List Char) :
    pyUpperL (pyTitleL l) = pyUpperL l := pyUpperL_pyTitleGo false l

theorem pyTitleGo_length (b : Bool) (l : List Char) :
    (pyTitleGo b l).length = l.length := by
  induction l generalizing b with
  | nil => rfl
  | cons c rest ih =>
      unfold pyTitleGo
      by_cases hc : isCasedChar c <;> simp [hc, ih]

theorem pyTitleL_length (l : List Char) : (pyTitleL l).length = l.length :=
  pyTitleGo_length false l

theorem pyTitleGo_forall {P : Char → Prop}
    (hlo : ∀ c, P c → P (lowerChar c)) (hup : ∀ c, P c → P (upperChar c)) :
    ∀ (b : Bool) (l : List Char), (∀ c ∈ l, P c) →
      ∀ c ∈ pyTitleGo b l, P c := by
  intro b l
  induction l generalizing b with
  | nil => intro _ c hc; cases hc
  | cons d rest ih =>
      intro hall c hc
      unfold pyTitleGo at hc
      have hd' : P d := hall d (List.mem_cons_self _ _)
      have hrest : ∀ x ∈ rest, P x := fun x hx => hall x (List.mem_cons_of_mem _ hx)
      by_cases hd : isCasedChar d
      · rw [if_pos hd] at hc
        rcases List.mem_cons.mp hc with h | h
        · subst h
          cases b
          · simpa using hup d hd'
          · simpa using hlo d hd'
        · exact ih true hrest c h
      · rw [if_neg hd] at hc
        rcases List.mem_cons.mp hc with h | h
        · subst h; exact hd'
        · exact ih false hrest c h

theorem decVal_append (l₁ l₂ : List Char) :
    decVal (l₁ ++ l₂) = l₂.foldl (fun a c => 10 * a + (c.toNat - 48)) (decVal l₁) := by
  unfold decVal
  rw [List.foldl_append]

theorem digitChar_toNat {d : ℕ} (h : d < 10) : (digitChar d).toNat - 48 = d := by
  interval_cases d <;> decide

theorem decVal_natDecAux : ∀ fuel n, n ≤ fuel → decVal (natDecAux fuel n) = n := by
  intro fuel
  induction fuel with
  | zero =>
      intro n hn
      have : n = 0 := Nat.le_zero.mp hn
      subst this
      rfl
  | succ f ih =>
      intro n hn
      match n with
      | 0 => rfl
      | m + 1 =>
          show decVal (natDecAux f ((m + 1) / 10) ++ [digitChar ((m + 1) % 10)]) = m + 1
          rw [decVal_append]
          simp only [List.foldl_cons, List.foldl_nil]
          have hdiv : (m + 1) / 10 ≤ f := by
            have := Nat.div_lt_self (Nat.succ_pos m) (by norm_num : 1 < 10)
            omega
          rw [ih _ hdiv, digitChar_toNat (Nat.mod_lt _ (by norm_num))]
          omega

theorem decVal_natToDecL (n : ℕ) : decVal (natToDecL n) = n := by
  unfold natToDecL
  by_cases h : n = 0
  · subst h; decide
  · simp only [h, if_false]
    exact decVal_natDecAux n n le_rfl

theorem natToDecL_injective : Function.Injective natToDecL := by
  intro a b hab
  have := congrArg decVal hab
  rwa [decVal_natToDecL, decVal_natToDecL] at this

theorem natDecAux_chars :
    ∀ fuel n, ∀ c ∈ natDecAux fuel n, ∃ d, d < 10 ∧ c = digitChar d := by
  intro fuel
  induction fuel with
  | zero =>
      intro n c hc
      match n with
      | 0 => cases hc
      | _ + 1 => cases hc
  | succ f ih =>
      intro n c hc
      match n with
      | 0 => cases hc
      | m + 1 =>
          rcases List.mem_append.mp hc with h | h
          · exact ih _ c h
          · rcases List.mem_singleton.mp h with rfl
            exact ⟨(m + 1) % 10, Nat.mod_lt _ (by norm_num), rfl⟩

theorem natToDecL_head_digit (n : ℕ) :
    ∀ c ∈ natToDecL n, 48 ≤ c.toNat ∧ c.toNat ≤ 57 := by
  intro c hc
  unfold natToDecL at hc
  by_cases h : n = 0
  · simp [h] at hc
    subst hc; decide
  · simp only [h, if_false] at hc
    obtain ⟨d, hd10, rfl⟩ := natDecAux_chars n n c hc
    unfold digitChar
    have : (Char.ofNat (48 + d)).toNat = 48 + d := by
      interval_cases d <;> decide
    omega

theorem natToDecL_ne_nil (n : ℕ) : natToDecL n ≠ [] := by
  intro hcon
  by_cases h : n = 0
  · subst h
    exact absurd hcon (by decide)
  · have := decVal_natToDecL n
    rw [hcon] at this
    exact h this.symm

theorem natDecAux_one_digit {n : ℕ} (h1 : 1 ≤ n) (h10 : n < 10) :
    ∀ fuel, 1 ≤ fuel → natDecAux fuel n = [digitChar n] := by
  intro fuel hf
  obtain ⟨f, rfl⟩ : ∃ f, fuel = f + 1 := ⟨fuel - 1, by omega⟩
  obtain ⟨m, rfl⟩ : ∃ m, n = m + 1 := ⟨n - 1, by omega⟩
  show natDecAux f ((m + 1) / 10) ++ [digitChar ((m + 1) % 10)] = _
  have hd : (m + 1) / 10 = 0 := Nat.div_eq_of_lt h10
  have hm : (m + 1) % 10 = m + 1 := Nat.mod_eq_of_lt h10
  rw [hd, hm]
  match f with
  | 0 => rfl
  | _ + 1 => rfl

theorem pad2_length {n : ℕ} (h : n < 100) : (pad2 n).length = 2 := by
  unfold pad2
  by_cases h10 : n < 10
  · by_cases h0 : n = 0
    · subst h0; decide
    · simp only [h10, if_true, List.length_cons]
      unfold natToDecL
      rw [if_neg h0, natDecAux_one_digit (by omega) h10 n (by omega)]
      rfl
  · have h0 : n ≠ 0 := by omega
    simp only [h10, if_false]
    unfold natToDecL
    rw [if_neg h0]
    obtain ⟨m, rfl⟩ : ∃ m, n = m + 1 := ⟨n - 1, by omega⟩
    show (natDecAux m ((m + 1) / 10) ++ [digitChar ((m + 1) % 10)]).length = 2
    have hd1 : 1 ≤ (m + 1) / 10 := by omega
    have hd10 : (m + 1) / 10 < 10 := by omega
    rw [natDecAux_one_digit hd1 hd10 m (by omega)]
    rfl

theorem decVal_pad2 {n : ℕ} : decVal (pad2 n) = n := by
  unfold pad2
  by_cases h10 : n < 10
  · simp only [h10, if_true]
    show decVal (['0'] ++ natToDecL n) = n
    rw [decVal_append]
    have : decVal ['0'] = 0 := by decide
    rw [this]
    exact decVal_natToDecL n
  · simp only [h10, if_false]
    exact decVal_natToDecL n

theorem pad2_injective : Function.Injective pad2 := by
  intro a b hab
  have := congrArg decVal hab
  rwa [decVal_pad2, decVal_pad2] at this

theorem formatCents_injective : Function.Injective formatCents := by
  intro a b hab
  unfold formatCents at hab
  have hlen : ('.' :: pad2 (a.natAbs % 100)).length =
      ('.' :: pad2 (b.natAbs % 100)).length := by
    simp [pad2_length (Nat.mod_lt _ (by norm_num : (0:ℕ) < 100))]
  obtain ⟨h1, h2⟩ := List.append_inj' hab hlen
  have hfrac : a.natAbs % 100 = b.natAbs % 100 := by
    have h2' : pad2 (a.natAbs % 100) = pad2 (b.natAbs % 100) := by
      injection h2
    exact pad2_injective h2'
  -- sign flags must agree: the quotient part never starts with '-'
  have hsign : (a < 0) = (b < 0) := by
    by_contra hne
    have hmem : ∀ (z : ℤ), ∀ c ∈ natToDecL (z.natAbs / 100), c ≠ '-' := by
      intro z c hc
      have := natToDecL_head_digit _ c hc
      intro hcon
      subst hcon
      revert this
      decide
    by_cases ha : a < 0 <;> by_cases hb : b < 0
    · exact hne (by simp [ha, hb])
    · rw [if_pos ha, if_neg hb, List.singleton_append, List.nil_append] at h1
      have : '-' ∈ natToDecL (b.natAbs / 100) := by
        rw [← h1]; exact List.mem_cons_self _ _
      exact hmem b '-' this rfl
    · rw [if_neg ha, if_pos hb, List.singleton_append, List.nil_append] at h1
      have : '-' ∈ natToDecL (a.natAbs / 100) := by
        rw [h1]; exact List.mem_cons_self _ _
      exact hmem a '-' this rfl
    · exact hne (by simp [ha, hb])
  have hquot : a.natAbs / 100 = b.natAbs / 100 := by
    by_cases ha : a < 0
    · have hb : b < 0 := by
        have := hsign; simp only [eq_iff_iff] at this; exact this.mp ha
      rw [if_pos ha, if_pos hb, List.singleton_append, List.singleton_append] at h1
      have h1' : natToDecL (a.natAbs / 100) = natToDecL (b.natAbs / 100) := by
        injection h1
      exact natToDecL_injective h1'
    · have hb : ¬ b < 0 := by
        have := hsign; simp only [eq_iff_iff] at this
        exact fun hcon => ha (this.mpr hcon)
      rw [if_neg ha, if_neg hb, List.nil_append, List.nil_append] at h1
      exact natToDecL_injective h1
  have habs : a.natAbs = b.natAbs := by
    have := Nat.div_add_mod a.natAbs 100
    have := Nat.div_add_mod b.natAbs 100
    omega
  by_cases ha : a < 0
  · have hb : b < 0 := by rw [← hsign]; exact ha
    omega
  · have hb : ¬ b < 0 := by rw [← hsign]; exact ha
    omega

/-- C8: for every valid ISO date (one the shared parser accepts) and closing
day, the statement period is (year, month) when the day-of-month is at most
the closing day, and (year, month+1) with December rolling into January of
the next year otherwise.  The instances "2026-01-16" ↦ "2026-02",
"2026-01-15" ↦ "2026-01" and "2026-12-20" ↦ "2027-01" at closing day 15 are
exercised by the witness. -/
theorem statement_period_boundary
    (s : String) (y m d closing_day : ℕ)
    (hp : parseYmd s.data = some (y, m, d)) :
    (d ≤ closing_day → get_statement_period s closing_day =
      ⟨natToDecL y ++ '-' :: pad2 m⟩) ∧
    (d > closing_day → m < 12 → get_statement_period s closing_day =
      ⟨natToDecL y ++ '-' :: pad2 (m + 1)⟩) ∧
    (d > closing_day → m = 12 → get_statement_period s closing_day =
      ⟨natToDecL (y + 1) ++ '-' :: pad2 1⟩) := by
  refine ⟨fun hle => ?_, fun hgt hlt => ?_, fun hgt hm => ?_⟩
  · unfold get_statement_period
    rw [hp]
    dsimp only
    rw [if_neg (by omega : ¬ d > closing_day)]
  · unfold get_statement_period
    rw [hp]
    dsimp only
    rw [if_pos hgt, if_neg (by omega : ¬ m + 1 > 12)]
  · unfold get_statement_period
    rw [hp]
    subst hm
    dsimp only
    rw [if_pos hgt, if_pos (by omega : 12 + 1 > 12)]

/-- Witness for C8: the three boundary instances from the spec, obtained by
applying the boundary theorem at concrete parsed dates. -/
theorem statement_period_boundary_witness :
    get_statement_period "2026-01-16" 15 = "2026-02" ∧
    get_statement_period "2026-01-15" 15 = "2026-01" ∧
    get_statement_period "2026-12-20" 15 = "2027-01" := by
  refine ⟨?_, ?_, ?_⟩
  · have h := statement_period_boundary "2026-01-16" 2026 1 16 15 (by decide)
    rw [h.2.1 (by decide) (by decide)]
    decide
  · have h := statement_period_boundary "2026-01-15" 2026 1 15 15 (by decide)
    rw [h.1 (by decide)]
    decide
  · have h := statement_period_boundary "2026-12-20" 2026 12 20 15 (by decide)
    rw [h.2.2 (by decide) rfl]
    decide

theorem seg_cancel {pre : List Char} {c : Char} {x y : List Char}
    (h : pre ++ (c :: x) = pre ++ (c :: y)) : x = y := by
  have := List.append_cancel_left h
  injection this

theorem string_mk_inj {a b : List Char} (h : (⟨a⟩ : String) = ⟨b⟩) : a = b := by
  injection h

/-- Amended C1.  Stability: field-for-field identical transactions have the
same id.  Insensitivity: the id ignores `raw_description`, `source`, and
`description` whenever a normalized description is present (it depends only
on the seven composite-key components).  Sensitivity: with the other six
key components fixed, changing the bank id, account id, canonical account
id, date, amount (e.g. by one cent), effective lowercased description, or
lowercased tax id changes the digest input, hence the id. -/
theorem canonical_id_stability_and_key_sensitivity :
    (∀ t u : CanonicalTransaction,
      t.date = u.date → t.description = u.description →
      t.amountCents = u.amountCents → t.bank_id = u.bank_id →
      t.account_id = u.account_id →
      t.canonical_account_id = u.canonical_account_id →
      t.raw_description = u.raw_description →
      t.normalized_description = u.normalized_description →
      t.source = u.source → t.rfc = u.rfc → t.idInput = u.idInput) ∧
    (∀ t u : CanonicalTransaction,
      t.bank_id = u.bank_id → t.account_id = u.account_id →
      t.canonical_account_id = u.canonical_account_id → t.date = u.date →
      t.amountCents = u.amountCents →
      t.normalized_description = u.normalized_description →
      t.normalized_description ≠ "" → t.rfc = u.rfc →
      t.idInput = u.idInput) ∧
    (∀ t u : CanonicalTransaction,
      t.account_id = u.account_id →
      t.canonical_account_id = u.canonical_account_id → t.date = u.date →
      t.amountCents = u.amountCents → textForId t = textForId u →
      rfcForId t = rfcForId u →
      t.bank_id ≠ u.bank_id → t.idInput ≠ u.idInput) ∧
    (∀ t u : CanonicalTransaction,
      t.bank_id = u.bank_id →
      t.canonical_account_id = u.canonical_account_id → t.date = u.date →
      t.amountCents = u.amountCents → textForId t = textForId u →
      rfcForId t = rfcForId u →
      t.account_id ≠ u.account_id → t.idInput ≠ u.idInput) ∧
    (∀ t u : CanonicalTransaction,
      t.bank_id = u.bank_id → t.account_id = u.account_id → t.date = u.date →
      t.amountCents = u.amountCents → textForId t = textForId u →
      rfcForId t = rfcForId u →
      t.canonical_account_id ≠ u.canonical_account_id →
      t.idInput ≠ u.idInput) ∧
    (∀ t u : CanonicalTransaction,
      t.bank_id = u.bank_id → t.account_id = u.account_id →
      t.canonical_account_id = u.canonical_account_id →
      t.amountCents = u.amountCents → textForId t = textForId u →
      rfcForId t = rfcForId u →
      t.date ≠ u.date → t.idInput ≠ u.idInput) ∧
    (∀ t u : CanonicalTransaction,
      t.bank_id = u.bank_id → t.account_id = u.account_id →
      t.canonical_account_id = u.canonical_account_id → t.date = u.date →
      textForId t = textForId u → rfcForId t = rfcForId u →
      t.amountCents ≠ u.amountCents → t.idInput ≠ u.idInput) ∧
    (∀ t u : CanonicalTransaction,
      t.bank_id = u.bank_id → t.account_id = u.account_id →
      t.canonical_account_id = u.canonical_account_id → t.date = u.date →
      t.amountCents = u.amountCents → rfcForId t = rfcForId u →
      textForId t ≠ textForId u → t.idInput ≠ u.idInput) ∧
    (∀ t u : CanonicalTransaction,
      t.bank_id = u.bank_id → t.account_id = u.account_id →
      t.canonical_account_id = u.canonical_account_id → t.date = u.date →
      t.amountCents = u.amountCents → textForId t = textForId u →
      rfcForId t ≠ rfcForId u → t.idInput ≠ u.idInput) := by
  refine ⟨?_, ?_, ?_, ?_, ?_, ?_, ?_, ?_, ?_⟩
  · intro t u h1 h2 h3 h4 h5 h6 h7 h8 h9 h10
    have : t = u := by
      cases t; cases u
      simp_all
    rw [this]
  · intro t u hb ha hc hd ham hn hne hr
    unfold CanonicalTransaction.idInput idInputL textForId rfcForId pyOr
    rw [hb, ha, hc, hd, ham, hn, hr]
    simp only [if_neg (hn ▸ hne)]
  · intro t u ha hc hd ham ht hr hb heq
    apply hb
    have hl : idInputL t = idInputL u := string_mk_inj heq
    unfold idInputL at hl
    rw [ha, hc, hd, ham, ht, hr] at hl
    exact String.ext (List.append_cancel_right hl)
  · intro t u hb hc hd ham ht hr hne heq
    apply hne
    have hl : idInputL t = idInputL u := string_mk_inj heq
    unfold idInputL at hl
    rw [hb] at hl
    have hl2 := seg_cancel hl
    rw [hc, hd, ham, ht, hr] at hl2
    exact String.ext (List.append_cancel_right hl2)
  · intro t u hb ha hd ham ht hr hne heq
    apply hne
    have hl : idInputL t = idInputL u := string_mk_inj heq
    unfold idInputL at hl
    rw [hb] at hl
    have hl2 := seg_cancel hl
    rw [ha] at hl2
    have hl3 := seg_cancel hl2
    rw [hd, ham, ht, hr] at hl3
    exact String.ext (List.append_cancel_right hl3)
  · intro t u hb ha hc ham ht hr hne heq
    apply hne
    have hl : idInputL t = idInputL u := string_mk_inj heq
    unfold idInputL at hl
    rw [hb] at hl
    have hl2 := seg_cancel hl
    rw [ha] at hl2
    have hl3 := seg_cancel hl2
    rw [hc] at hl3
    have hl4 := seg_cancel hl3
    rw [ham, ht, hr] at hl4
    exact String.ext (List.append_cancel_right hl4)
  · intro t u hb ha hc hd ht hr hne heq
    apply hne
    have hl : idInputL t = idInputL u := string_mk_inj heq
    unfold idInputL at hl
    rw [hb] at hl
    have hl2 := seg_cancel hl
    rw [ha] at hl2
    have hl3 := seg_cancel hl2
    rw [hc] at hl3
    have hl4 := seg_cancel hl3
    rw [hd] at hl4
    have hl5 := seg_cancel hl4
    rw [ht, hr] at hl5
    exact formatCents_injective (List.append_cancel_right hl5)
  · intro t u hb ha hc hd ham hr hne heq
    apply hne
    have hl : idInputL t = idInputL u := string_mk_inj heq
    unfold idInputL at hl
    rw [hb] at hl
    have hl2 := seg_cancel hl
    rw [ha] at hl2
    have hl3 := seg_cancel hl2
    rw [hc] at hl3
    have hl4 := seg_cancel hl3
    rw [hd] at hl4
    have hl5 := seg_cancel hl4
    rw [ham] at hl5
    have hl6 := seg_cancel hl5
    rw [hr] at hl6
    exact List.append_cancel_right hl6
  · intro t u hb ha hc hd ham ht hne heq
    apply hne
    have hl : idInputL t = idInputL u := string_mk_inj heq
    unfold idInputL at hl
    rw [hb] at hl
    have hl2 := seg_cancel hl
    rw [ha] at hl2
    have hl3 := seg_cancel hl2
    rw [hc] at hl3
    have hl4 := seg_cancel hl3
    rw [hd] at hl4
    have hl5 := seg_cancel hl4
    rw [ham] at hl5
    have hl6 := seg_cancel hl5
    rw [ht] at hl6
    exact seg_cancel hl6

/-- Witness for the amended C1: the one-cent sensitivity (100 vs 101 cents,
i.e. 1.00 vs 1.01) and the bank-id sensitivity, applied at concrete
transactions. -/
theorem canonical_id_stability_and_key_sensitivity_witness :
    ctBase.idInput ≠ ({ ctBase with amountCents := 101 }).idInput ∧
    ctBase.idInput ≠ ({ ctBase with bank_id := "santander" }).idInput := by
  constructor
  · exact canonical_id_stability_and_key_sensitivity.2.2.2.2.2.2.1 _ _
      rfl rfl rfl rfl (by decide) (by decide) (by decide)
  · exact canonical_id_stability_and_key_sensitivity.2.2.1 _ _
      rfl rfl rfl rfl (by decide) (by decide) (by decide)

/-- Counterexample to C1 as stated: changing only `raw_description` — or
only `source`, or only `description` while a normalized description is
present — yields a pair of distinct transactions with the same digest input,
hence the same id. -/
theorem canonical_id_raw_description_insensitive :
    (ctNorm ≠ { ctNorm with raw_description := "DIFFERENT" } ∧
     ctNorm.idInput = ({ ctNorm with raw_description := "DIFFERENT" }).idInput) ∧
    (ctNorm ≠ { ctNorm with description := "CHANGED DESC" } ∧
     ctNorm.idInput = ({ ctNorm with description := "CHANGED DESC" }).idInput) ∧
    (ctNorm ≠ { ctNorm with source := "pdf" } ∧
     ctNorm.idInput = ({ ctNorm with source := "pdf" }).idInput) := by
  decide

theorem hashPresent_append_single (st : DBState) (row : TxnRow) (x : String) :
    hashPresent { st with transactions := st.transactions ++ [row] } x =
      (hashPresent st x || (row.source_hash == x)) := by
  unfold hashPresent
  simp [List.any_append]

theorem insert_transaction_new {st : DBState} {txn : TxnIn}
    {imp : Option ℕ} (h : hashPresent st (txnHash txn) = false) :
    insert_transaction st txn imp =
      ({ st with transactions :=
          st.transactions ++ [mkTxnRow txn imp (txnHash txn)] }, true) := by
  simp [insert_transaction, h]

theorem insert_transaction_dup {st : DBState} {txn : TxnIn}
    {imp : Option ℕ} (h : hashPresent st (txnHash txn) = true) :
    insert_transaction st txn imp = (st, false) := by
  simp [insert_transaction, h]

theorem persistRows_cons (st : DBState) (r : TxnIn) (rest : List TxnIn)
    (imp : Option ℕ) :
    persistRows st (r :: rest) imp =
      ((persistRows (insert_transaction st r imp).1 rest imp).1,
        (if (insert_transaction st r imp).2 then 1 else 0) +
          (persistRows (insert_transaction st r imp).1 rest imp).2) := rfl

theorem persistRows_all_new :
    ∀ (rows : List TxnIn) (st : DBState) (imp : Option ℕ),
      (rows.map txnHash).Nodup →
      (∀ r ∈ rows, hashPresent st (txnHash r) = false) →
      persistRows st rows imp =
        ({ st with transactions :=
            st.transactions ++ rows.map (fun r => mkTxnRow r imp (txnHash r)) },
          rows.length) := by
  intro rows
  induction rows with
  | nil => intro st imp _ _; simp [persistRows]
  | cons r rest ih =>
      intro st imp hnodup habs
      rw [List.map_cons] at hnodup
      have hnotmem := (List.nodup_cons.mp hnodup).1
      have hnodup2 := (List.nodup_cons.mp hnodup).2
      have hr : hashPresent st (txnHash r) = false :=
        habs r (List.mem_cons_self _ _)
      have hins := @insert_transaction_new _ _ imp hr
      have hrest : ∀ x ∈ rest, hashPresent
          { st with transactions := st.transactions ++ [mkTxnRow r imp (txnHash r)] }
          (txnHash x) = false := by
        intro x hx
        rw [hashPresent_append_single]
        have h1 : hashPresent st (txnHash x) = false :=
          habs x (List.mem_cons_of_mem _ hx)
        have h2 : txnHash r ≠ txnHash x := by
          intro hcon
          exact hnotmem (hcon ▸ List.mem_map_of_mem txnHash hx)
        simp [h1, mkTxnRow, h2]
      rw [persistRows_cons, hins]
      dsimp only
      rw [ih _ imp hnodup2 hrest]
      simp [List.append_assoc, Nat.add_comm]

theorem persistRows_all_present :
    ∀ (rows : List TxnIn) (st : DBState) (imp : Option ℕ),
      (∀ r ∈ rows, hashPresent st (txnHash r) = true) →
      persistRows st rows imp = (st, 0) := by
  intro rows
  induction rows with
  | nil => intro st imp _; rfl
  | cons r rest ih =>
      intro st imp hall
      have hr : hashPresent st (txnHash r) = true := hall r (List.mem_cons_self _ _)
      rw [persistRows_cons, insert_transaction_dup hr]
      dsimp only
      rw [ih st imp (fun x hx => hall x (List.mem_cons_of_mem _ hx))]
      rfl

/-- C2: inserting a transaction whose content hash is already stored is a
no-op returning `false`; and persisting the same list of rows twice (rows
with pairwise distinct hashes, none present beforehand) inserts all N rows
the first time, 0 rows the second time, and leaves the stored count at the
original count plus N. -/
theorem import_idempotence :
    (∀ (st : DBState) (txn : TxnIn) (imp : Option ℕ),
      hashPresent st (txnHash txn) = true →
      insert_transaction st txn imp = (st, false)) ∧
    (∀ (st : DBState) (rows : List TxnIn) (imp : Option ℕ),
      (rows.map txnHash).Nodup →
      (∀ r ∈ rows, hashPresent st (txnHash r) = false) →
      (persistRows st rows imp).2 = rows.length ∧
      (persistRows (persistRows st rows imp).1 rows imp).2 = 0 ∧
      (persistRows (persistRows st rows imp).1 rows imp).1 =
        (persistRows st rows imp).1 ∧
      (persistRows st rows imp).1.transactions.length =
        st.transactions.length + rows.length) := by
  constructor
  · intro st txn imp h
    exact insert_transaction_dup h
  · intro st rows imp hnodup habs
    have h1 := persistRows_all_new rows st imp hnodup habs
    have hpresent : ∀ r ∈ rows,
        hashPresent (persistRows st rows imp).1 (txnHash r) = true := by
      intro r hr
      rw [h1]
      unfold hashPresent
      simp only [List.any_append, Bool.or_eq_true]
      right
      rw [List.any_eq_true]
      refine ⟨mkTxnRow r imp (txnHash r), List.mem_map_of_mem _ hr, ?_⟩
      simp [mkTxnRow]
    have h2 := persistRows_all_present rows (persistRows st rows imp).1 imp hpresent
    refine ⟨by rw [h1], by rw [h2], by rw [h2], ?_⟩
    rw [h1]
    simp

/-- Witness for C2: the two-row file persisted twice into an empty store:
2 inserts, then 0, leaving 2 stored rows. -/
theorem import_idempotence_witness :
    (persistRows {} sampleRows none).2 = 2 ∧
    (persistRows (persistRows {} sampleRows none).1 sampleRows none).2 = 0 ∧
    (persistRows {} sampleRows none).1.transactions.length = 2 := by
  have h := import_idempotence.2 {} sampleRows none (by decide) (by decide)
  exact ⟨h.1, h.2.1, h.2.2.2⟩

theorem build_source_hash_file_sensitive
    {b f1 f2 d : String} {c : ℤ} {desc : String} (h : f1 ≠ f2) :
    build_source_hash_input b f1 d c desc ≠
      build_source_hash_input b f2 d c desc := by
  intro hcon
  apply h
  have hl := string_mk_inj hcon
  have hl2 := seg_cancel hl
  exact String.ext (List.append_cancel_right hl2)

/-- C10: the duplicate-suppression key of the persistence layer is the
digest of (bank id, source file path, date, 2-decimal amount, lowercased
stripped description).  Two transactions equal in everything except the
source file path get distinct digest inputs, so the same logical
transaction re-imported from another path is inserted a second time; while
a transaction equal on those five fields is deduplicated even when its
account ids (which drive the §4.6 content id) differ — the §4.6 id plays no
role in the check. -/
theorem source_hash_dedup_key :
    (∀ (b f1 f2 d : String) (c : ℤ) (desc : String), f1 ≠ f2 →
      build_source_hash_input b f1 d c desc ≠
        build_source_hash_input b f2 d c desc) ∧
    (∀ (st : DBState) (txn txn' : TxnIn) (imp imp' : Option ℕ),
      txn.source_hash = none → txn'.source_hash = none →
      txn.bank_id = txn'.bank_id → txn.date = txn'.date →
      txn.amountCents = txn'.amountCents →
      txn.description = txn'.description →
      txn.source_file ≠ txn'.source_file →
      hashPresent st (txnHash txn) = false →
      hashPresent st (txnHash txn') = false →
      (insert_transaction st txn imp).2 = true ∧
      (insert_transaction (insert_transaction st txn imp).1 txn' imp').2 = true ∧
      (insert_transaction (insert_transaction st txn imp).1 txn' imp').1.transactions.length =
        st.transactions.length + 2) ∧
    (∀ (st : DBState) (txn txn' : TxnIn) (imp imp' : Option ℕ),
      txn.source_hash = none → txn'.source_hash = none →
      txn.bank_id = txn'.bank_id → txn.date = txn'.date →
      txn.amountCents = txn'.amountCents →
      txn.description = txn'.description →
      txn.source_file = txn'.source_file →
      (insert_transaction (insert_transaction st txn imp).1 txn' imp').2 = false) := by
  refine ⟨fun b f1 f2 d c desc h => build_source_hash_file_sensitive h, ?_, ?_⟩
  · intro st txn txn' imp imp' hs hs' hb hd ha hdesc hfile habs habs'
    have hhash : txnHash txn ≠ txnHash txn' := by
      unfold txnHash
      rw [hs, hs', hb, hd, ha, hdesc]
      exact build_source_hash_file_sensitive hfile
    have h1 := @insert_transaction_new _ _ imp habs
    refine ⟨by rw [h1], ?_, ?_⟩
    · have habs2 : hashPresent (insert_transaction st txn imp).1 (txnHash txn') = false := by
        rw [h1]
        rw [hashPresent_append_single]
        simp [habs', mkTxnRow, hhash]
      have h2 := @insert_transaction_new _ _ imp' habs2
      rw [h2]
    · have habs2 : hashPresent (insert_transaction st txn imp).1 (txnHash txn') = false := by
        rw [h1]
        rw [hashPresent_append_single]
        simp [habs', mkTxnRow, hhash]
      have h2 := @insert_transaction_new _ _ imp' habs2
      rw [h2, h1]
      simp
  · intro st txn txn' imp imp' hs hs' hb hd ha hdesc hfile
    have hhash : txnHash txn = txnHash txn' := by
      unfold txnHash
      rw [hs, hs', hb, hd, ha, hdesc, hfile]
    by_cases habs : hashPresent st (txnHash txn) = true
    · rw [insert_transaction_dup habs]
      have habs2 : hashPresent st (txnHash txn') = true := by
        rw [← hhash]; exact habs
      rw [insert_transaction_dup habs2]
    · have habs' : hashPresent st (txnHash txn) = false :=
        Bool.eq_false_iff.mpr habs
      have h1 := @insert_transaction_new _ _ imp habs'
      rw [h1]
      have hpres : hashPresent
          { st with transactions := st.transactions ++ [mkTxnRow txn imp (txnHash txn)] }
          (txnHash txn') = true := by
        rw [hashPresent_append_single]
        simp [mkTxnRow, hhash]
      rw [insert_transaction_dup hpres]

/-- Witness for C10: the same logical transaction imported from two
different file paths into an empty store is stored twice; imported from the
same path with a different canonical account id (hence a different §4.6
content id input) it is deduplicated. -/
theorem source_hash_dedup_key_witness :
    (insert_transaction (insert_transaction {} txnPathA none).1
      { txnPathA with source_file := "data/b/firefly.csv" } none).2 = true ∧
    (insert_transaction (insert_transaction {} txnPathA none).1
      { txnPathA with canonical_account_id := "cc:OTHER" } none).2 = false := by
  constructor
  · exact (source_hash_dedup_key.2.1 {} txnPathA
      { txnPathA with source_file := "data/b/firefly.csv" } none none
      rfl rfl rfl rfl rfl rfl (by decide) (by decide) (by decide)).2.1
  · exact source_hash_dedup_key.2.2 {} txnPathA
      { txnPathA with canonical_account_id := "cc:OTHER" } none none
      rfl rfl rfl rfl rfl rfl rfl

/-- C7: kind inference follows the stated priority order.  A description
containing any known subscription/service brand resolves to "charge"
regardless of the amount sign, the tax id, and any payment keyword (such as
the substring "pago"); each lower-priority cue decides only when every
higher-priority cue is absent, down to the amount-sign fallback. -/
theorem infer_kind_priority :
    ∀ (d : String) (a : ℤ) (rfc : String),
      (∀ lit ∈ chargeServiceLits, containsSub (pyLowerL d.data) lit.data = true →
        infer_kind d a rfc = "charge") ∧
      (chargeServiceHit d = false → cashbackHit d = true →
        infer_kind d a rfc = "cashback") ∧
      (chargeServiceHit d = false → cashbackHit d = false →
        refundHit d = true → infer_kind d a rfc = "refund") ∧
      (chargeServiceHit d = false → cashbackHit d = false →
        refundHit d = false → processorHit d = true →
        infer_kind d a rfc = (if suPagoHit d then "payment" else "charge")) ∧
      (chargeServiceHit d = false → cashbackHit d = false →
        refundHit d = false → processorHit d = false → paymentHit d = true →
        infer_kind d a rfc = "payment") ∧
      (chargeServiceHit d = false → cashbackHit d = false →
        refundHit d = false → processorHit d = false → paymentHit d = false →
        pyStripL rfc.data ≠ [] → infer_kind d a rfc = "charge") ∧
      (chargeServiceHit d = false → cashbackHit d = false →
        refundHit d = false → processorHit d = false → paymentHit d = false →
        pyStripL rfc.data = [] →
        infer_kind d a rfc = (if a < 0 then "charge" else "payment")) := by
  intro d a rfc
  refine ⟨?_, ?_, ?_, ?_, ?_, ?_, ?_⟩
  · intro lit hlit hsub
    have hhit : chargeServiceHit d = true := by
      unfold chargeServiceHit
      rw [List.any_eq_true]
      exact ⟨lit, hlit, hsub⟩
    simp [infer_kind, hhit]
  · intro h1 h2
    simp [infer_kind, h1, h2]
  · intro h1 h2 h3
    simp [infer_kind, h1, h2, h3]
  · intro h1 h2 h3 h4
    simp [infer_kind, h1, h2, h3, h4]
  · intro h1 h2 h3 h4 h5
    simp [infer_kind, h1, h2, h3, h4, h5]
  · intro h1 h2 h3 h4 h5 h6
    simp [infer_kind, h1, h2, h3, h4, h5, h6]
  · intro h1 h2 h3 h4 h5 h6
    simp [infer_kind, h1, h2, h3, h4, h5, h6]

/-- Witness for C7: "NETFLIX PAGO MX" contains both a streaming brand and
the payment keyword "pago", has a positive amount and no tax id, yet
resolves to "charge" via the highest-priority cue. -/
theorem infer_kind_priority_witness :
    paymentHit "NETFLIX PAGO MX" = true ∧ (0 : ℤ) < 10000 ∧
    infer_kind "NETFLIX PAGO MX" 10000 "" = "charge" := by
  refine ⟨by decide, by decide, ?_⟩
  exact (infer_kind_priority "NETFLIX PAGO MX" 10000 "").1 "netflix"
    (by decide) (by decide)

theorem char_toNat_inj {a b : Char} (h : a.toNat = b.toNat) : a = b := by
  rcases a with ⟨⟨⟨av, hav⟩⟩, ha⟩
  rcases b with ⟨⟨⟨bv, hbv⟩⟩, hb⟩
  simp only [Char.toNat, UInt32.toNat, BitVec.toNat] at h
  subst h
  rfl

theorem cmpChars_cons (x y : Char) (xs ys : List Char) :
    cmpChars (x :: xs) (y :: ys) =
      (if x.toNat < y.toNat then .lt
       else if y.toNat < x.toNat then .gt else cmpChars xs ys) := rfl

theorem lawful_cmpChars : LawfulCmp cmpChars := by
  refine ⟨?_, ?_, ?_⟩
  · intro a
    induction a with
    | nil => intro b; cases b <;> simp [cmpChars]
    | cons x xs ih =>
        intro b
        cases b with
        | nil => simp [cmpChars]
        | cons y ys =>
            rw [cmpChars_cons]
            by_cases h1 : x.toNat < y.toNat
            · rw [if_pos h1]
              constructor
              · intro hcon; cases hcon
              · intro hcon
                injection hcon with hx _
                subst hx
                omega
            · by_cases h2 : y.toNat < x.toNat
              · rw [if_neg h1, if_pos h2]
                constructor
                · intro hcon; cases hcon
                · intro hcon
                  injection hcon with hx _
                  subst hx
                  omega
              · have hxy : x = y := char_toNat_inj (by omega)
                subst hxy
                rw [if_neg h1, if_neg h2, ih ys]
                constructor
                · intro h; rw [h]
                · intro h; injection h
  · intro a
    induction a with
    | nil => intro b; cases b <;> rfl
    | cons x xs ih =>
        intro b
        cases b with
        | nil => rfl
        | cons y ys =>
            rw [cmpChars_cons, cmpChars_cons]
            split_ifs <;> first | rfl | (exact ih ys) | (exfalso; omega)
  · intro a
    induction a with
    | nil =>
        intro b c hab hbc
        cases b with
        | nil => exact hbc
        | cons y ys =>
            cases c with
            | nil => cases hbc
            | cons z zs => rfl
    | cons x xs ih =>
        intro b c hab hbc
        cases b with
        | nil => cases hab
        | cons y ys =>
            cases c with
            | nil => cases hbc
            | cons z zs =>
                rw [cmpChars_cons] at hab hbc ⊢
                by_cases h1 : x.toNat < y.toNat
                · by_cases h2 : y.toNat < z.toNat
                  · rw [if_pos (by omega : x.toNat < z.toNat)]
                  · by_cases h3 : z.toNat < y.toNat
                    · rw [if_neg h2, if_pos h3] at hbc; cases hbc
                    · have : y = z := char_toNat_inj (by omega)
                      subst this
                      rw [if_pos h1]
                · by_cases h1' : y.toNat < x.toNat
                  · rw [if_neg h1, if_pos h1'] at hab; cases hab
                  · have hxy : x = y := char_toNat_inj (by omega)
                    subst hxy
                    rw [if_neg h1, if_neg h1'] at hab
                    by_cases h2 : x.toNat < z.toNat
                    · rw [if_pos h2]
                    · by_cases h3 : z.toNat < x.toNat
                      · rw [if_neg h2, if_pos h3] at hbc; cases hbc
                      · rw [if_neg h2, if_neg h3] at hbc ⊢
                        exact ih ys zs hab hbc

theorem lawful_cmpZ : LawfulCmp cmpZ := by
  refine ⟨?_, ?_, ?_⟩
  · intro a b
    unfold cmpZ
    split_ifs with h1 h2
    · constructor
      · intro hc; cases hc
      · intro hc; exfalso; omega
    · simp [h2]
    · constructor
      · intro hc; cases hc
      · intro hc; exfalso; omega
  · intro a b
    unfold cmpZ
    split_ifs <;> first | rfl | (exfalso; omega)
  · intro a b c hab hbc
    unfold cmpZ at hab hbc ⊢
    split_ifs at hab hbc ⊢ <;> first | rfl | (exfalso; omega)

theorem cmpQ_lt {a b : ℚ} (h : a < b) : cmpQ a b = .lt := by
  unfold cmpQ
  rw [if_pos h]

theorem cmpQ_eq_self (a : ℚ) : cmpQ a a = .eq := by
  unfold cmpQ
  rw [if_neg (lt_irrefl a), if_pos rfl]

theorem cmpQ_gt {a b : ℚ} (h : b < a) : cmpQ a b = .gt := by
  unfold cmpQ
  rw [if_neg (by linarith),
    if_neg (show ¬ a = b by intro hc; subst hc; exact absurd h (lt_irrefl a))]

theorem lawful_cmpQ : LawfulCmp cmpQ := by
  refine ⟨?_, ?_, ?_⟩
  · intro a b
    rcases lt_trichotomy a b with h | h | h
    · rw [cmpQ_lt h]
      constructor
      · intro hc; cases hc
      · intro hc; subst hc; exact absurd h (lt_irrefl a)
    · subst h
      rw [cmpQ_eq_self]
      simp
    · rw [cmpQ_gt h]
      constructor
      · intro hc; cases hc
      · intro hc; subst hc; exact absurd h (lt_irrefl a)
  · intro a b
    rcases lt_trichotomy a b with h | h | h
    · rw [cmpQ_lt h, cmpQ_gt h]
      rfl
    · subst h
      rw [cmpQ_eq_self]
      rfl
    · rw [cmpQ_gt h, cmpQ_lt h]
      rfl
  · intro a b c hab hbc
    rcases lt_trichotomy a b with h1 | h1 | h1
    · rcases lt_trichotomy b c with h2 | h2 | h2
      · exact cmpQ_lt (lt_trans h1 h2)
      · subst h2; exact cmpQ_lt h1
      · rw [cmpQ_gt h2] at hbc; cases hbc
    · subst h1; exact hbc
    · rw [cmpQ_gt h1] at hab; cases hab

theorem lawful_cmpLex {α β : Type} {ca : α → α → Ordering}
    {cb : β → β → Ordering} (ha : LawfulCmp ca) (hb : LawfulCmp cb) :
    LawfulCmp (cmpLex ca cb) := by
  obtain ⟨haeq, haswap, hatrans⟩ := ha
  obtain ⟨hbeq, hbswap, hbtrans⟩ := hb
  refine ⟨?_, ?_, ?_⟩
  · intro x y
    unfold cmpLex
    cases hcv : ca x.1 y.1 with
    | lt =>
        simp only [Ordering.then]
        constructor
        · intro h; cases h
        · intro h
          rw [h, (haeq _ _).mpr rfl] at hcv
          cases hcv
    | gt =>
        simp only [Ordering.then]
        constructor
        · intro h; cases h
        · intro h
          rw [h, (haeq _ _).mpr rfl] at hcv
          cases hcv
    | eq =>
        simp only [Ordering.then]
        have h1 : x.1 = y.1 := (haeq _ _).mp hcv
        rw [hbeq]
        constructor
        · intro h2
          obtain ⟨x1, x2⟩ := x
          obtain ⟨y1, y2⟩ := y
          rw [Prod.mk.injEq]
          exact ⟨h1, h2⟩
        · intro h
          rw [h]
  · intro x y
    unfold cmpLex
    rw [haswap, hbswap]
    cases ca x.1 y.1 <;> cases cb x.2 y.2 <;> rfl
  · intro x y z hxy hyz
    unfold cmpLex at hxy hyz ⊢
    cases hcv : ca x.1 y.1 with
    | gt => rw [hcv] at hxy; cases hxy
    | lt =>
        cases hcv2 : ca y.1 z.1 with
        | gt => rw [hcv2] at hyz; cases hyz
        | lt => rw [hatrans _ _ _ hcv hcv2]; rfl
        | eq =>
            have : y.1 = z.1 := (haeq _ _).mp hcv2
            rw [← this, hcv]
            rfl
    | eq =>
        have h1 : x.1 = y.1 := (haeq _ _).mp hcv
        rw [hcv] at hxy
        simp only [Ordering.then] at hxy
        cases hcv2 : ca y.1 z.1 with
        | gt => rw [hcv2] at hyz; cases hyz
        | lt =>
            rw [h1, hcv2]
            rfl
        | eq =>
            rw [hcv2] at hyz
            simp only [Ordering.then] at hyz
            rw [h1, hcv2]
            simp only [Ordering.then]
            exact hbtrans _ _ _ hxy hyz

theorem cmpLe_trans {α : Type} {cmp : α → α → Ordering} (hl : LawfulCmp cmp)
    {a b c : α} (h1 : cmpLe cmp a b = true) (h2 : cmpLe cmp b c = true) :
    cmpLe cmp a c = true := by
  obtain ⟨heq, hswap, htrans⟩ := hl
  unfold cmpLe at *
  cases hab : cmp a b with
  | gt => rw [hab] at h1; cases h1
  | eq =>
      have : a = b := (heq _ _).mp hab
      subst this
      exact h2
  | lt =>
      cases hbc : cmp b c with
      | gt => rw [hbc] at h2; cases h2
      | eq =>
          have : b = c := (heq _ _).mp hbc
          subst this
          rw [hab]
      | lt => rw [htrans _ _ _ hab hbc]

theorem cmpLe_total {α : Type} {cmp : α → α → Ordering} (hl : LawfulCmp cmp)
    (a b : α) : (cmpLe cmp a b || cmpLe cmp b a) = true := by
  obtain ⟨heq, hswap, htrans⟩ := hl
  unfold cmpLe
  cases hab : cmp a b with
  | lt => rfl
  | eq => rfl
  | gt =>
      have : cmp b a = .lt := by rw [hswap, hab]; rfl
      rw [this]
      rfl

theorem lawful_genCmp : LawfulCmp genCmp :=
  lawful_cmpLex lawful_cmpChars
    (lawful_cmpLex lawful_cmpChars (lawful_cmpLex lawful_cmpZ lawful_cmpChars))

theorem lawful_hsbcCmp : LawfulCmp hsbcCmp :=
  lawful_cmpLex lawful_cmpChars
    (lawful_cmpLex lawful_cmpChars (lawful_cmpLex lawful_cmpQ lawful_cmpChars))

theorem genKeyLe_trans (a b c : GenTxnRaw) (h1 : genKeyLe a b = true)
    (h2 : genKeyLe b c = true) : genKeyLe a c = true :=
  cmpLe_trans lawful_genCmp h1 h2

theorem genKeyLe_total (a b : GenTxnRaw) :
    (genKeyLe a b || genKeyLe b a) = true :=
  cmpLe_total lawful_genCmp _ _

theorem hsbcKeyLe_trans (a b c : HsbcTxnRaw) (h1 : hsbcKeyLe a b = true)
    (h2 : hsbcKeyLe b c = true) : hsbcKeyLe a c = true :=
  cmpLe_trans lawful_hsbcCmp h1 h2

theorem hsbcKeyLe_total (a b : HsbcTxnRaw) :
    (hsbcKeyLe a b || hsbcKeyLe b a) = true :=
  cmpLe_total lawful_hsbcCmp _ _

/-- Amended C9: the XML reader `extract_movimientos` and the non-PDF
branches of `load_data` return sequences sorted by their respective
(date, description, amount, tax-id) keys; the PDF/OCR branch of
`load_data`, by contrast, returns rows in extraction order (see the
counterexample for a run where that order is not sorted). -/
theorem readers_sorted_except_pdf :
    (∀ (addenda : XmlElem),
      (extract_movimientos addenda).Pairwise (fun a b => hsbcKeyLe a b = true)) ∧
    (∀ (year : ℕ) (txns : List GenTxnRaw),
      (load_data none year (some txns)).Pairwise
        (fun a b => genKeyLe a b = true)) ∧
    (∀ (year : ℕ), load_data none year none = []) := by
  refine ⟨?_, ?_, fun _ => rfl⟩
  · intro addenda
    unfold extract_movimientos
    exact List.sorted_mergeSort hsbcKeyLe_trans hsbcKeyLe_total _
  · intro year txns
    show (txns.mergeSort genKeyLe).Pairwise (fun a b => genKeyLe a b = true)
    exact List.sorted_mergeSort genKeyLe_trans genKeyLe_total txns

/-- Counterexample to C9 as stated: the PDF/OCR branch of `load_data`
returns the parsed rows in extraction order without sorting — here the
output dates are ["2024-02-13", "2024-01-12"], which is not sorted by the
(date, description, amount, tax-id) key. -/
theorem load_data_pdf_branch_unsorted :
    (load_data (some pdfRowsUnsorted) 2024 none).map (fun t => t.date) =
      ["2024-02-13", "2024-01-12"] ∧
    ¬ (load_data (some pdfRowsUnsorted) 2024 none).Pairwise
        (fun a b => genKeyLe a b = true) := by
  constructor
  · decide
  · decide

theorem reconGo_nil (xmlE : List (ℕ × HsbcTxnRaw)) (used : List ℕ) :
    reconGo xmlE [] used = ([], [], [], used) := rfl

theorem reconGo_cons_hit {xmlE : List (ℕ × HsbcTxnRaw)} {used : List ℕ}
    {p : HsbcTxnRaw} {c : ℕ × HsbcTxnRaw} (rest : List HsbcTxnRaw)
    (h : findCandidate xmlE used (txn_match_key p) = some c) :
    reconGo xmlE (p :: rest) used =
      (mkMerged p c.2 :: (reconGo xmlE rest (c.1 :: used)).1,
        (reconGo xmlE rest (c.1 :: used)).2.1,
        (if diffCond p c.2 then [mkDiff p c.2] else []) ++
          (reconGo xmlE rest (c.1 :: used)).2.2.1,
        (reconGo xmlE rest (c.1 :: used)).2.2.2) := by
  conv_lhs => rw [reconGo]
  rw [h]

theorem reconGo_cons_miss {xmlE : List (ℕ × HsbcTxnRaw)} {used : List ℕ}
    {p : HsbcTxnRaw} (rest : List HsbcTxnRaw)
    (h : findCandidate xmlE used (txn_match_key p) = none) :
    reconGo xmlE (p :: rest) used =
      (p :: (reconGo xmlE rest used).1, p :: (reconGo xmlE rest used).2.1,
        (reconGo xmlE rest used).2.2.1, (reconGo xmlE rest used).2.2.2) := by
  conv_lhs => rw [reconGo]
  rw [h]

theorem findCandidate_none {xml : List HsbcTxnRaw} {used : List ℕ}
    {k : String × ℤ} (h : ¬ k ∈ xml.map txn_match_key) :
    findCandidate xml.enum used k = none := by
  unfold findCandidate bucketFor
  have hempty : xml.enum.filter (fun p => txn_match_key p.2 == k) = [] := by
    rw [List.filter_eq_nil_iff]
    intro p hp
    simp only [beq_iff_eq, Bool.not_eq_true]
    intro hcon
    apply h
    rw [← hcon]
    apply List.mem_map_of_mem
    have : p.2 ∈ xml.enum.map Prod.snd := List.mem_map_of_mem _ hp
    rwa [List.enum_map_snd] at this
  rw [hempty]
  rfl

theorem findCandidate_some {xml : List HsbcTxnRaw} {used : List ℕ}
    {k : String × ℤ} (hk : k ∈ xml.map txn_match_key)
    (hfree : ∀ i ∈ used, ∀ x, (i, x) ∈ xml.enum → txn_match_key x ≠ k) :
    ∃ c, findCandidate xml.enum used k = some c ∧ c ∈ xml.enum ∧
      txn_match_key c.2 = k ∧ c.1 ∉ used := by
  unfold findCandidate bucketFor
  obtain ⟨x, hx, hxk⟩ := List.mem_map.mp hk
  have hx2 : x ∈ xml.enum.map Prod.snd := by rw [List.enum_map_snd]; exact hx
  obtain ⟨px, hpx, hpx2⟩ := List.mem_map.mp hx2
  have hbucket : px ∈ xml.enum.filter (fun p => txn_match_key p.2 == k) := by
    rw [List.mem_filter]
    exact ⟨hpx, by rw [hpx2, hxk]; exact beq_self_eq_true k⟩
  have hall : ∀ b ∈ xml.enum.filter (fun p => txn_match_key p.2 == k),
      (!(used.contains b.1)) = true := by
    intro b hb
    rw [List.mem_filter] at hb
    have hbk : txn_match_key b.2 = k := by
      have := hb.2
      rwa [beq_iff_eq] at this
    have hnot : b.1 ∉ used := fun hmem =>
      hfree b.1 hmem b.2 (by rcases b with ⟨b1, b2⟩; exact hb.1) hbk
    simp [hnot]
  rcases hfil : xml.enum.filter (fun p => txn_match_key p.2 == k) with _ | ⟨c, cs⟩
  · rw [hfil] at hbucket; cases hbucket
  · refine ⟨c, ?_, ?_, ?_, ?_⟩
    · rw [hfil, List.find?_cons_of_pos]
      exact hall c (by rw [hfil]; exact List.mem_cons_self _ _)
    · have : c ∈ xml.enum.filter (fun p => txn_match_key p.2 == k) := by
        rw [hfil]; exact List.mem_cons_self _ _
      exact List.mem_of_mem_filter this
    · have : c ∈ xml.enum.filter (fun p => txn_match_key p.2 == k) := by
        rw [hfil]; exact List.mem_cons_self _ _
      rw [List.mem_filter] at this
      exact beq_iff_eq.mp this.2
    · have := hall c (by rw [hfil]; exact List.mem_cons_self _ _)
      simpa using this

theorem length_filter_add_length_filter_not {α : Type} (l : List α)
    (f : α → Bool) :
    (l.filter f).length + (l.filter (fun a => !(f a))).length = l.length := by
  induction l with
  | nil => rfl
  | cons a rest ih =>
      rw [List.filter_cons, List.filter_cons]
      cases h : f a <;> simp [h] <;> omega

theorem enum_filter_not_used_length (xml : List HsbcTxnRaw) (used : List ℕ)
    (hb : ∀ i ∈ used, i < xml.length) (hn : used.Nodup) :
    (xml.enum.filter (fun p => !(used.contains p.1))).length =
      xml.length - used.length := by
  have hsplit := length_filter_add_length_filter_not xml.enum
    (fun p => used.contains p.1)
  rw [List.enum_length] at hsplit
  have hA : ((xml.enum.filter (fun p => used.contains p.1)).map Prod.fst).length =
      used.length := by
    set A := (xml.enum.filter (fun p => used.contains p.1)).map Prod.fst with hAdef
    have hAnodup : A.Nodup := by
      have hsub : (xml.enum.filter (fun p => used.contains p.1)).Sublist xml.enum :=
        List.filter_sublist _
      have hmap := hsub.map Prod.fst
      rw [List.enum_map_fst] at hmap
      exact List.Nodup.sublist hmap (List.nodup_range _)
    have hAsub : A ⊆ used := by
      intro a ha
      rw [hAdef] at ha
      obtain ⟨p, hp, hpa⟩ := List.mem_map.mp ha
      rw [List.mem_filter] at hp
      have := hp.2
      rw [← hpa]
      simpa using this
    have husub : used ⊆ A := by
      intro i hi
      have hilen : i < xml.length := hb i hi
      have hpair : (i, xml[i]) ∈ xml.enum := by
        rw [List.mem_enum_iff_getElem?]
        exact List.getElem?_eq_some.mpr ⟨hilen, rfl⟩
      rw [hAdef]
      apply List.mem_map.mpr
      refine ⟨(i, xml[i]), ?_, rfl⟩
      rw [List.mem_filter]
      exact ⟨hpair, by simpa using hi⟩
    have h1 := (List.subperm_of_subset hAnodup hAsub).length_le
    have h2 := (List.subperm_of_subset hn husub).length_le
    omega
  rw [List.length_map] at hA
  omega

/-- The central induction for the reconciler totals: processing `pdf` against
the indexed `xml` rows with a consumed-index set whose keys are disjoint
from the remaining primary keys. -/
theorem reconGo_spec (xml : List HsbcTxnRaw) :
    ∀ (pdf : List HsbcTxnRaw) (used : List ℕ),
      pdf.Pairwise (fun p q => txn_match_key p = txn_match_key q →
        txn_match_key p ∉ xml.map txn_match_key) →
      (∀ p ∈ pdf, ∀ s ∈ xml, txn_match_key p = txn_match_key s →
        pyLowerL (collapseWS p.description.data) =
          pyLowerL (collapseWS s.description.data) ∧
        |p.amount - s.amount| ≤ 1 / 100) →
      (∀ i ∈ used, i < xml.length) → used.Nodup →
      (∀ p ∈ pdf, ∀ i ∈ used, ∀ x, (i, x) ∈ xml.enum →
        txn_match_key x ≠ txn_match_key p) →
      (reconGo xml.enum pdf used).1.length = pdf.length ∧
      (reconGo xml.enum pdf used).2.1.length =
        (pdf.filter (fun p =>
          !(decide (txn_match_key p ∈ xml.map txn_match_key)))).length ∧
      (reconGo xml.enum pdf used).2.2.1 = [] ∧
      (reconGo xml.enum pdf used).2.2.2.length = used.length +
        (pdf.filter (fun p =>
          decide (txn_match_key p ∈ xml.map txn_match_key))).length ∧
      (∀ i ∈ (reconGo xml.enum pdf used).2.2.2, i < xml.length) ∧
      (reconGo xml.enum pdf used).2.2.2.Nodup := by
  intro pdf
  induction pdf with
  | nil =>
      intro used _ _ hb hn _
      rw [reconGo_nil]
      exact ⟨rfl, rfl, rfl, by simp, hb, hn⟩
  | cons p rest ih =>
      intro used hP htol hb hn hinv
      have hPtail := (List.pairwise_cons.mp hP).2
      have hPhead := (List.pairwise_cons.mp hP).1
      have htoltail : ∀ q ∈ rest, ∀ s ∈ xml, txn_match_key q = txn_match_key s →
          pyLowerL (collapseWS q.description.data) =
            pyLowerL (collapseWS s.description.data) ∧
          |q.amount - s.amount| ≤ 1 / 100 :=
        fun q hq => htol q (List.mem_cons_of_mem _ hq)
      by_cases hin : txn_match_key p ∈ xml.map txn_match_key
      · obtain ⟨c, hfc, hcmem, hck, hcused⟩ :=
          findCandidate_some hin (fun i hi x hx =>
            hinv p (List.mem_cons_self _ _) i hi x hx)
        rw [reconGo_cons_hit rest hfc]
        have hcx : c.2 ∈ xml := by
          have : c.2 ∈ xml.enum.map Prod.snd := List.mem_map_of_mem _ hcmem
          rwa [List.enum_map_snd] at this
        have hclen : c.1 < xml.length := by
          rcases c with ⟨i, x⟩
          have := List.mem_enum_iff_getElem?.mp hcmem
          have := List.getElem?_eq_some.mp this
          exact this.1
        have hdiff : diffCond p c.2 = false := by
          obtain ⟨hdesc, hamt⟩ := htol p (List.mem_cons_self _ _) c.2 hcx hck.symm
          unfold diffCond
          rw [hdesc]
          simp only [beq_self_eq_true, Bool.not_true, Bool.false_or]
          rw [decide_eq_false (not_lt.mpr hamt)]
        have hb2 : ∀ i ∈ c.1 :: used, i < xml.length := by
          intro i hi
          rcases List.mem_cons.mp hi with h | h
          · subst h; exact hclen
          · exact hb i h
        have hn2 : (c.1 :: used).Nodup := List.nodup_cons.mpr ⟨hcused, hn⟩
        have hinv2 : ∀ q ∈ rest, ∀ i ∈ c.1 :: used, ∀ x, (i, x) ∈ xml.enum →
            txn_match_key x ≠ txn_match_key q := by
          intro q hq i hi x hx
          rcases List.mem_cons.mp hi with h | h
          · subst h
            have hxc : x = c.2 := by
              rcases c with ⟨i, cx⟩
              have h1 := List.mem_enum_iff_getElem?.mp hx
              have h2 := List.mem_enum_iff_getElem?.mp hcmem
              rw [h1] at h2
              injection h2
            subst hxc
            rw [hck]
            intro hcon
            exact (hPhead q hq hcon) hin
          · exact hinv q (List.mem_cons_of_mem _ hq) i h x hx
        obtain ⟨ih1, ih2, ih3, ih4, ih5, ih6⟩ :=
          ih (c.1 :: used) hPtail htoltail hb2 hn2 hinv2
        refine ⟨?_, ?_, ?_, ?_, ih5, ih6⟩
        · simpa using ih1
        · rw [List.filter_cons]
          simp only [decide_eq_true hin, Bool.not_true, Bool.false_eq_true,
            if_false]
          exact ih2
        · rw [hdiff]
          simpa using ih3
        · rw [List.filter_cons]
          simp only [decide_eq_true hin, eq_self_iff_true, if_true]
          rw [ih4]
          simp only [List.length_cons]
          omega
      · have hfc : findCandidate xml.enum used (txn_match_key p) = none :=
          findCandidate_none hin
        rw [reconGo_cons_miss rest hfc]
        have hinv2 : ∀ q ∈ rest, ∀ i ∈ used, ∀ x, (i, x) ∈ xml.enum →
            txn_match_key x ≠ txn_match_key q :=
          fun q hq => hinv q (List.mem_cons_of_mem _ hq)
        obtain ⟨ih1, ih2, ih3, ih4, ih5, ih6⟩ :=
          ih used hPtail htoltail hb hn hinv2
        refine ⟨?_, ?_, ih3, ?_, ih5, ih6⟩
        · simpa using ih1
        · rw [List.filter_cons]
          simp only [decide_eq_false hin, Bool.not_false, eq_self_iff_true,
            if_true]
          simpa using ih2
        · rw [List.filter_cons]
          simp only [decide_eq_false hin, Bool.false_eq_true, if_false]
          exact ih4

theorem reconGo_empty_xml (pdf : List HsbcTxnRaw) :
    ∀ used : List ℕ, reconGo [] pdf used = (pdf, pdf, [], used) := by
  induction pdf with
  | nil => intro used; rfl
  | cons p rest ih =>
      intro used
      have h : findCandidate [] used (txn_match_key p) = none := rfl
      rw [reconGo_cons_miss rest h, ih]

theorem apply_empty_xml (pdf : List HsbcTxnRaw) :
    apply_xml_reference_to_pdf pdf [] =
      (pdf, { matched := 0, total_pdf := pdf.length, total_xml := 0,
              pdf_only := pdf, xml_only := [], differences := [] }) := by
  have he : reconGo (([] : List HsbcTxnRaw).enum) pdf [] = (pdf, pdf, [], []) :=
    reconGo_empty_xml pdf []
  simp only [apply_xml_reference_to_pdf]
  rw [he]
  simp

/-- C5: with a one-to-one key overlap of size K — rows with equal
(date, rounded absolute amount) keys across the two sources carry
case-insensitively equal collapsed descriptions and amounts within 0.01,
and duplicate keys inside the primary list never overlap the secondary
list — the reconciler reports matched = K, N − K primary-only rows,
M − K secondary-only rows and no differences; and against an empty
secondary list it returns all primary rows, flagged primary-only, with
nothing secondary-only. -/
theorem reconciler_totals (pdf xml : List HsbcTxnRaw) (K : ℕ)
    (hone : pdf.Pairwise (fun p q => txn_match_key p = txn_match_key q →
      txn_match_key p ∉ xml.map txn_match_key))
    (htol : ∀ p ∈ pdf, ∀ s ∈ xml, txn_match_key p = txn_match_key s →
      pyLowerL (collapseWS p.description.data) =
        pyLowerL (collapseWS s.description.data) ∧
      |p.amount - s.amount| ≤ 1 / 100)
    (hK : K = (pdf.filter (fun p =>
      decide (txn_match_key p ∈ xml.map txn_match_key))).length) :
    (apply_xml_reference_to_pdf pdf xml).2.matched = K ∧
    (apply_xml_reference_to_pdf pdf xml).2.pdf_only.length = pdf.length - K ∧
    (apply_xml_reference_to_pdf pdf xml).2.xml_only.length = xml.length - K ∧
    (apply_xml_reference_to_pdf pdf xml).2.differences = [] ∧
    apply_xml_reference_to_pdf pdf [] =
      (pdf, { matched := 0, total_pdf := pdf.length, total_xml := 0,
              pdf_only := pdf, xml_only := [], differences := [] }) := by
  obtain ⟨h1, h2, h3, h4, h5, h6⟩ := reconGo_spec xml pdf []
    hone htol (fun i hi => absurd hi (List.not_mem_nil i)) List.nodup_nil
    (fun p _ i hi => absurd hi (List.not_mem_nil i))
  have husedlen : (reconGo xml.enum pdf []).2.2.2.length = K := by
    rw [h4, hK]
    simp
  have hxlen := enum_filter_not_used_length xml
    (reconGo xml.enum pdf []).2.2.2 h5 h6
  have hsplit : (pdf.filter (fun p =>
      decide (txn_match_key p ∈ xml.map txn_match_key))).length +
      (pdf.filter (fun p =>
        !(decide (txn_match_key p ∈ xml.map txn_match_key)))).length =
      pdf.length :=
    length_filter_add_length_filter_not pdf _
  refine ⟨?_, ?_, ?_, h3, apply_empty_xml pdf⟩
  · show pdf.length - (reconGo xml.enum pdf []).2.1.length = K
    rw [h2, hK]
    omega
  · show (reconGo xml.enum pdf []).2.1.length = pdf.length - K
    rw [h2, hK]
    omega
  · show ((xml.enum.filter (fun p =>
        !((reconGo xml.enum pdf []).2.2.2.contains p.1))).map
        (fun p => p.2)).length = xml.length - K
    rw [List.length_map, hxlen, husedlen]

theorem reconciler_totals_witness :
    (apply_xml_reference_to_pdf pdfC5 xmlC5).2.matched = 1 ∧
    (apply_xml_reference_to_pdf pdfC5 xmlC5).2.pdf_only.length = 1 ∧
    (apply_xml_reference_to_pdf pdfC5 xmlC5).2.xml_only.length = 0 ∧
    (apply_xml_reference_to_pdf pdfC5 xmlC5).2.differences = [] := by
  have honeC5 : pdfC5.Pairwise (fun p q =>
      txn_match_key p = txn_match_key q →
      txn_match_key p ∉ xmlC5.map txn_match_key) := by
    rw [show pdfC5 = [pdfRow1C5, pdfRow2C5] from rfl]
    refine List.pairwise_cons.mpr ⟨?_, by simp⟩
    intro q hq hkey
    have hq1 : q = pdfRow2C5 := List.mem_singleton.mp hq
    subst hq1
    exact absurd (congrArg Prod.fst hkey) (by decide)
  have htolC5 : ∀ p ∈ pdfC5, ∀ s ∈ xmlC5,
      txn_match_key p = txn_match_key s →
      pyLowerL (collapseWS p.description.data) =
        pyLowerL (collapseWS s.description.data) ∧
      |p.amount - s.amount| ≤ 1 / 100 := by
    intro p hp s hs hkey
    have hs1 : s = xmlRow1C5 := List.mem_singleton.mp hs
    subst hs1
    rcases List.mem_cons.mp hp with h1 | h1
    · subst h1
      refine ⟨by decide, ?_⟩
      rw [show pdfRow1C5.amount - xmlRow1C5.amount = (0 : ℚ) from sub_self 5]
      rw [abs_zero]
      norm_num
    · have h2 : p = pdfRow2C5 := List.mem_singleton.mp h1
      subst h2
      exact absurd (congrArg Prod.fst hkey) (by decide)
  have hfilC5 : (1 : ℕ) = (pdfC5.filter (fun p =>
      decide (txn_match_key p ∈ xmlC5.map txn_match_key))).length := by
    have hk11 : txn_match_key pdfRow1C5 = txn_match_key xmlRow1C5 := rfl
    have hmem1 : txn_match_key pdfRow1C5 ∈ xmlC5.map txn_match_key := by
      rw [show xmlC5.map txn_match_key = [txn_match_key xmlRow1C5] from rfl]
      exact List.mem_singleton.mpr hk11
    have hmem2 : txn_match_key pdfRow2C5 ∉ xmlC5.map txn_match_key := by
      rw [show xmlC5.map txn_match_key = [txn_match_key xmlRow1C5] from rfl]
      rw [List.mem_singleton]
      intro hcon
      exact absurd (congrArg Prod.fst hcon) (by decide)
    rw [show pdfC5 = [pdfRow1C5, pdfRow2C5] from rfl]
    simp only [List.filter_cons, List.filter_nil]
    rw [decide_eq_true hmem1, decide_eq_false hmem2]
    rfl
  obtain ⟨h1, h2, h3, h4, _⟩ :=
    reconciler_totals pdfC5 xmlC5 1 honeC5 htolC5 hfilC5
  exact ⟨h1, h2, h3, h4⟩

theorem apply_single_pair (p x : HsbcTxnRaw)
    (hkey : txn_match_key p = txn_match_key x) :
    apply_xml_reference_to_pdf [p] [x] =
      ([mkMerged p x],
        { matched := 1, total_pdf := 1, total_xml := 1, pdf_only := [],
          xml_only := [],
          differences := if diffCond p x then [mkDiff p x] else [] }) := by
  have hbeq : (txn_match_key x == txn_match_key p) = true :=
    beq_iff_eq.mpr hkey.symm
  have hfc : findCandidate (([x] : List HsbcTxnRaw).enum) []
      (txn_match_key p) = some (0, x) := by
    unfold findCandidate bucketFor
    rw [show ([x] : List HsbcTxnRaw).enum = [(0, x)] from rfl]
    simp only [List.filter_cons, List.filter_nil]
    rw [hbeq]
    rfl
  have hrun : reconGo (([x] : List HsbcTxnRaw).enum) [p] [] =
      ([mkMerged p x], [],
        (if diffCond p x then [mkDiff p x] else []) ++ [], [0]) := by
    rw [reconGo_cons_hit [] hfc, reconGo_nil]
  simp only [apply_xml_reference_to_pdf]
  rw [hrun]
  simp

/-- C6: on a key hit the reconciler emits exactly one merged row; it carries
the primary row's date, amount and source, the primary description unless
that is empty (in which case the secondary's), and the secondary row's tax
id and account hint unless the secondary lacks them (in which case the
primary's); a difference entry is recorded exactly when the
whitespace-collapsed descriptions differ case-insensitively or the amounts
are more than 0.01 apart. -/
theorem reconciler_merge_composition (p x : HsbcTxnRaw)
    (hkey : txn_match_key p = txn_match_key x) :
    (apply_xml_reference_to_pdf [p] [x]).1 = [mkMerged p x] ∧
    (∀ m ∈ (apply_xml_reference_to_pdf [p] [x]).1,
      m.date = p.date ∧ m.amount = p.amount ∧ m.source = p.source ∧
      m.description =
        (if p.description = "" then x.description else p.description) ∧
      m.rfc = (if x.rfc = "" then p.rfc else x.rfc) ∧
      m.account_hint =
        (if x.account_hint = "" then p.account_hint else x.account_hint)) ∧
    (apply_xml_reference_to_pdf [p] [x]).2.differences =
      (if diffCond p x then [mkDiff p x] else []) ∧
    (diffCond p x = true ↔
      (¬ pyLowerL (collapseWS p.description.data) =
          pyLowerL (collapseWS x.description.data) ∨
        |p.amount - x.amount| > 1 / 100)) := by
  have h := apply_single_pair p x hkey
  refine ⟨?_, ?_, ?_, ?_⟩
  · rw [h]
  · intro m hm
    rw [h] at hm
    have hm1 : m = mkMerged p x := List.mem_singleton.mp hm
    subst hm1
    exact ⟨rfl, rfl, rfl, rfl, rfl, rfl⟩
  · rw [h]
  · simp [diffCond]

theorem reconciler_merge_composition_witness :
    (apply_xml_reference_to_pdf [pC6w] [xC6w]).1 = [mkMerged pC6w xC6w] ∧
    (apply_xml_reference_to_pdf [pC6w] [xC6w]).2.differences =
      [mkDiff pC6w xC6w] ∧
    (mkMerged pC6w xC6w).rfc = "RFC9" ∧
    (mkMerged pC6w xC6w).account_hint = "H1" := by
  obtain ⟨h1, _, h3, _⟩ := reconciler_merge_composition pC6w xC6w rfl
  refine ⟨h1, ?_, by decide, by decide⟩
  rw [h3, if_pos (show diffCond pC6w xC6w = true from by decide)]

/-- The merged row does not keep the primary row's tax id when the
secondary row also carries one, and does not keep an empty primary
description: both come from the secondary row, against the claim's
"primary description" and "backfilled only where the primary lacks them". -/
theorem reconciler_merge_claim_counterexample :
    pC6c.rfc ≠ "" ∧
    (apply_xml_reference_to_pdf [pC6c] [xC6c]).1 = [mkMerged pC6c xC6c] ∧
    (mkMerged pC6c xC6c).rfc = xC6c.rfc ∧ xC6c.rfc ≠ pC6c.rfc ∧
    (mkMerged pC6c xC6c).description = xC6c.description ∧
    pC6c.description = "" ∧ xC6c.description ≠ "" := by
  have h := apply_single_pair pC6c xC6c rfl
  refine ⟨by decide, ?_, by decide, by decide, by decide, by decide,
    by decide⟩
  rw [h]

theorem upperChar_space : upperChar ' ' = ' ' := by decide

theorem isSep_isSpace {c : Char} (h : isSepChar c = true) :
    isSpaceChar c = true := by
  simp only [isSepChar, Bool.or_eq_true, beq_iff_eq] at h
  rcases h with h | h <;> subst h <;> decide

theorem dropWhile_eq_self_of_head {p : Char → Bool} {l : List Char}
    (h : ∀ c ∈ l.head?, p c = false) : l.dropWhile p = l := by
  cases l with
  | nil => rfl
  | cons a m =>
      rw [List.dropWhile_cons, h a rfl]
      simp

theorem pyStripL_eq_self {l : List Char}
    (hh : ∀ c ∈ l.head?, isSpaceChar c = false)
    (hl : ∀ c ∈ l.getLast?, isSpaceChar c = false) : pyStripL l = l := by
  have h2 : ∀ c ∈ l.reverse.head?, isSpaceChar c = false := by
    intro c hc
    rw [List.head?_reverse] at hc
    exact hl c hc
  unfold pyStripL
  rw [dropWhile_eq_self_of_head hh, dropWhile_eq_self_of_head h2,
    List.reverse_reverse]

theorem pyStripL_no_space {l : List Char}
    (h : ∀ c ∈ l, isSpaceChar c = false) : pyStripL l = l := by
  apply pyStripL_eq_self
  · intro c hc
    exact h c (List.mem_of_mem_head? hc)
  · intro c hc
    exact h c (List.mem_of_mem_getLast? hc)

theorem collapseRuns_space :
    ∀ (l : List Char), ∀ c ∈ collapseRuns l, isSpaceChar c = true → c = ' ' := by
  intro l
  induction l with
  | nil => intro c hc; cases hc
  | cons a rest ih =>
      intro x hx hsp
      rw [collapseRuns.eq_def] at hx
      dsimp only at hx
      by_cases ha : isSpaceChar a = true
      · rw [if_pos ha] at hx
        cases rest with
        | nil =>
            have : x = ' ' := by simpa using hx
            exact this
        | cons r rs =>
            dsimp only at hx
            by_cases hr : isSpaceChar r = true
            · rw [if_pos hr] at hx
              exact ih x hx hsp
            · rw [if_neg hr] at hx
              rcases List.mem_cons.mp hx with h | h
              · exact h
              · exact ih x h hsp
      · rw [if_neg ha] at hx
        rcases List.mem_cons.mp hx with h | h
        · subst h; exact absurd hsp ha
        · exact ih x h hsp

theorem collapseRuns_append {t : List Char}
    (h : ∀ c ∈ t, isSpaceChar c = false) :
    ∀ l, collapseRuns (t ++ l) = t ++ collapseRuns l := by
  induction t with
  | nil => intro l; rfl
  | cons c t' ih =>
      intro l
      have hc := h c (List.mem_cons_self _ _)
      show collapseRuns (c :: (t' ++ l)) = c :: (t' ++ collapseRuns l)
      rw [collapseRuns.eq_def]
      simp only [hc, Bool.false_eq_true, if_false]
      exact congrArg _ (ih (fun x hx => h x (List.mem_cons_of_mem _ hx)) l)

theorem splitSp_ne_nil : ∀ l : List Char, splitSp l ≠ [] := by
  intro l
  induction l with
  | nil => simp [splitSp]
  | cons c rest ih =>
      rw [splitSp.eq_def]
      dsimp only
      by_cases hc : isSepChar c = true
      · rw [if_pos hc]
        cases rest with
        | nil => simp
        | cons d rs =>
            dsimp only
            by_cases hd : isSepChar d = true
            · rw [if_pos hd]; exact ih
            · rw [if_neg hd]; simp
      · rw [if_neg hc]
        rcases hsp : splitSp rest with _ | ⟨t, ts⟩
        · simp
        · simp

theorem splitSp_sep_false :
    ∀ (l : List Char), ∀ t ∈ splitSp l, ∀ c ∈ t, isSepChar c = false := by
  intro l
  induction l with
  | nil =>
      intro t ht c hc
      have : t = [] := by simpa [splitSp] using ht
      subst this
      cases hc
  | cons a rest ih =>
      intro t ht c hc
      rw [splitSp.eq_def] at ht
      dsimp only at ht
      by_cases ha : isSepChar a = true
      · rw [if_pos ha] at ht
        cases rest with
        | nil =>
            rcases List.mem_cons.mp ht with h | h
            · subst h; cases hc
            · exact ih t h c hc
        | cons d rs =>
            dsimp only at ht
            by_cases hd : isSepChar d = true
            · rw [if_pos hd] at ht
              exact ih t ht c hc
            · rw [if_neg hd] at ht
              rcases List.mem_cons.mp ht with h | h
              · subst h; cases hc
              · exact ih t h c hc
      · rw [if_neg ha] at ht
        rcases hsp : splitSp rest with _ | ⟨t0, ts0⟩
        · rw [hsp] at ht
          dsimp only at ht
          rcases List.mem_cons.mp ht with h | h
          · subst h
            rcases List.mem_cons.mp hc with h' | h'
            · subst h'
              exact Bool.eq_false_iff.mpr ha
            · cases h'
          · cases h
        · rw [hsp] at ht
          dsimp only at ht
          rcases List.mem_cons.mp ht with h | h
          · subst h
            rcases List.mem_cons.mp hc with h' | h'
            · subst h'
              exact Bool.eq_false_iff.mpr ha
            · exact ih t0 (by rw [hsp]; exact List.mem_cons_self _ _) c h'
          · exact ih t (by rw [hsp]; exact List.mem_cons_of_mem _ h) c hc

theorem splitSp_subset :
    ∀ (l : List Char), ∀ t ∈ splitSp l, ∀ c ∈ t, c ∈ l := by
  intro l
  induction l with
  | nil =>
      intro t ht c hc
      have : t = [] := by simpa [splitSp] using ht
      subst this
      cases hc
  | cons a rest ih =>
      intro t ht c hc
      rw [splitSp.eq_def] at ht
      dsimp only at ht
      by_cases ha : isSepChar a = true
      · rw [if_pos ha] at ht
        cases rest with
        | nil =>
            rcases List.mem_cons.mp ht with h | h
            · subst h; cases hc
            · exact List.mem_cons_of_mem _ (ih t h c hc)
        | cons d rs =>
            dsimp only at ht
            by_cases hd : isSepChar d = true
            · rw [if_pos hd] at ht
              exact List.mem_cons_of_mem _ (ih t ht c hc)
            · rw [if_neg hd] at ht
              rcases List.mem_cons.mp ht with h | h
              · subst h; cases hc
              · exact List.mem_cons_of_mem _ (ih t h c hc)
      · rw [if_neg ha] at ht
        rcases hsp : splitSp rest with _ | ⟨t0, ts0⟩
        · rw [hsp] at ht
          dsimp only at ht
          rcases List.mem_cons.mp ht with h | h
          · subst h
            rcases List.mem_cons.mp hc with h' | h'
            · subst h'; exact List.mem_cons_self _ _
            · cases h'
          · cases h
        · rw [hsp] at ht
          dsimp only at ht
          rcases List.mem_cons.mp ht with h | h
          · subst h
            rcases List.mem_cons.mp hc with h' | h'
            · subst h'; exact List.mem_cons_self _ _
            · exact List.mem_cons_of_mem _
                (ih t0 (by rw [hsp]; exact List.mem_cons_self _ _) c h')
          · exact List.mem_cons_of_mem _
              (ih t (by rw [hsp]; exact List.mem_cons_of_mem _ h) c hc)

theorem splitSp_append {t : List Char}
    (hns : ∀ c ∈ t, isSepChar c = false) :
    ∀ {l s : List Char} {ss : List (List Char)}, splitSp l = s :: ss →
      splitSp (t ++ l) = (t ++ s) :: ss := by
  induction t with
  | nil => intro l s ss h; simpa using h
  | cons c t' ih =>
      intro l s ss h
      have hc : isSepChar c = false := hns c (List.mem_cons_self _ _)
      have hns' : ∀ x ∈ t', isSepChar x = false :=
        fun x hx => hns x (List.mem_cons_of_mem _ hx)
      rw [List.cons_append, splitSp.eq_def]
      dsimp only
      rw [hc]
      simp only [Bool.false_eq_true, if_false]
      rw [ih hns' h]
      rfl

theorem splitSp_space_cons {l : List Char}
    (h : l = [] ∨ ∃ d l', l = d :: l' ∧ isSepChar d = false) :
    splitSp (' ' :: l) = [] :: splitSp l := by
  have hsp1 : isSepChar ' ' = true := by decide
  rcases h with rfl | ⟨d, l', rfl, hd⟩
  · rfl
  · rw [splitSp.eq_def]
    dsimp only
    rw [hsp1, hd]
    simp

theorem splitSp_single {t : List Char}
    (hns : ∀ c ∈ t, isSepChar c = false) : splitSp t = [t] := by
  have h0 : splitSp ([] : List Char) = [] :: [] := rfl
  have h := splitSp_append hns h0
  simpa using h

theorem joinSp_cons (t : List Char) (ts : List (List Char)) :
    ∃ l', joinSp (t :: ts) = t ++ l' := by
  cases ts with
  | nil => exact ⟨[], (List.append_nil t).symm⟩
  | cons b ts' => exact ⟨' ' :: joinSp (b :: ts'), rfl⟩

theorem joinSp_concat : ∀ (us : List (List Char)) (v : List Char), us ≠ [] →
    joinSp (us ++ [v]) = joinSp us ++ ' ' :: v := by
  intro us
  induction us with
  | nil => intro v h; exact absurd rfl h
  | cons u us' ih =>
      intro v _
      cases us' with
      | nil => rfl
      | cons u2 us'' =>
          have h1 : joinSp (u :: ((u2 :: us'') ++ [v])) =
              u ++ ' ' :: joinSp ((u2 :: us'') ++ [v]) := rfl
          show joinSp (u :: ((u2 :: us'') ++ [v])) =
            (u ++ ' ' :: joinSp (u2 :: us'')) ++ ' ' :: v
          rw [h1, ih v (by simp)]
          simp

theorem pyUpperL_joinSp : ∀ ts : List (List Char),
    pyUpperL (joinSp ts) = joinSp (ts.map pyUpperL) := by
  intro ts
  induction ts with
  | nil => rfl
  | cons t ts' ih =>
      cases ts' with
      | nil => rfl
      | cons b ts'' =>
          show pyUpperL (t ++ ' ' :: joinSp (b :: ts'')) =
            pyUpperL t ++ ' ' :: joinSp ((b :: ts'').map pyUpperL)
          unfold pyUpperL
          rw [List.map_append, List.map_cons]
          rw [show upperChar ' ' = ' ' from upperChar_space]
          rw [show (joinSp (b :: ts'')).map upperChar =
            joinSp ((b :: ts'').map pyUpperL) from ih]
          rfl

theorem splitSp_joinSp : ∀ ts : List (List Char), ts ≠ [] →
    (∀ t ∈ ts, t ≠ [] ∧ ∀ c ∈ t, isSepChar c = false) →
    splitSp (joinSp ts) = ts := by
  intro ts
  induction ts with
  | nil => intro h; exact absurd rfl h
  | cons t ts' ih =>
      intro _ hall
      obtain ⟨ht, htc⟩ := hall t (List.mem_cons_self _ _)
      cases ts' with
      | nil =>
          show splitSp t = [t]
          exact splitSp_single htc
      | cons t2 ts'' =>
          obtain ⟨ht2, ht2c⟩ := hall t2 (by simp)
          have hIH := ih (by simp)
            (fun x hx => hall x (List.mem_cons_of_mem _ hx))
          obtain ⟨c2, t2', rfl⟩ : ∃ c2 t2', t2 = c2 :: t2' := by
            rcases t2 with _ | ⟨a, b⟩
            · exact absurd rfl ht2
            · exact ⟨a, b, rfl⟩
          obtain ⟨l', hl'⟩ := joinSp_cons (c2 :: t2') ts''
          have hd : isSepChar c2 = false := ht2c c2 (List.mem_cons_self _ _)
          have hsplit2 :
              splitSp (' ' :: joinSp ((c2 :: t2') :: ts'')) =
                [] :: splitSp (joinSp ((c2 :: t2') :: ts'')) := by
            apply splitSp_space_cons
            right
            rw [hl']
            exact ⟨c2, t2' ++ l', rfl, hd⟩
          show splitSp (t ++ ' ' :: joinSp ((c2 :: t2') :: ts'')) =
            t :: (c2 :: t2') :: ts''
          rw [splitSp_append htc (by rw [hsplit2, hIH])]
          rw [List.append_nil]

theorem pyStripL_joinSp {ts : List (List Char)}
    (h : ∀ t ∈ ts, t ≠ [] ∧ ∀ c ∈ t, isSpaceChar c = false) :
    pyStripL (joinSp ts) = joinSp ts := by
  cases ts with
  | nil => rfl
  | cons t ts' =>
      apply pyStripL_eq_self
      · obtain ⟨ht, htc⟩ := h t (List.mem_cons_self _ _)
        obtain ⟨c0, t0, rfl⟩ : ∃ c0 t0, t = c0 :: t0 := by
          rcases t with _ | ⟨a, b⟩
          · exact absurd rfl ht
          · exact ⟨a, b, rfl⟩
        obtain ⟨l', hl'⟩ := joinSp_cons (c0 :: t0) ts'
        intro c hc
        rw [hl'] at hc
        have hc' : c0 = c := by simpa using hc
        subst hc'
        exact htc c0 (List.mem_cons_self _ _)
      · rcases List.eq_nil_or_concat (t :: ts') with hnil | ⟨us, v, hconcat⟩
        · cases hnil
        · rw [List.concat_eq_append] at hconcat
          obtain ⟨hv, hvc⟩ := h v (by rw [hconcat]; simp)
          cases us with
          | nil =>
              simp only [List.nil_append] at hconcat
              rw [hconcat]
              intro c hc
              exact hvc c (List.mem_of_mem_getLast? (by simpa using hc))
          | cons u us' =>
              rw [hconcat, joinSp_concat _ v (by simp)]
              intro c hc
              rw [List.getLast?_append_of_ne_nil _ (by simp)] at hc
              have hlast : (' ' :: v).getLast? = v.getLast? := by
                rcases v with _ | ⟨a, m⟩
                · exact absurd rfl hv
                · simp [List.getLast?_cons_cons]
              rw [hlast] at hc
              exact hvc c (List.mem_of_mem_getLast? hc)

theorem collapseRuns_joinSp : ∀ ts : List (List Char),
    (∀ t ∈ ts, t ≠ [] ∧ ∀ c ∈ t, isSpaceChar c = false) →
    collapseRuns (joinSp ts) = joinSp ts := by
  intro ts
  induction ts with
  | nil => intro _; rfl
  | cons t ts' ih =>
      intro h
      obtain ⟨ht, htc⟩ := h t (List.mem_cons_self _ _)
      cases ts' with
      | nil =>
          show collapseRuns t = t
          have h0 := collapseRuns_append htc []
          rw [show collapseRuns ([] : List Char) = [] from rfl,
            List.append_nil] at h0
          exact h0
      | cons t2 ts'' =>
          obtain ⟨ht2, ht2c⟩ := h t2 (by simp)
          obtain ⟨c2, t2', rfl⟩ : ∃ c2 t2', t2 = c2 :: t2' := by
            rcases t2 with _ | ⟨a, b⟩
            · exact absurd rfl ht2
            · exact ⟨a, b, rfl⟩
          obtain ⟨l', hl'⟩ := joinSp_cons (c2 :: t2') ts''
          have hc2 : isSpaceChar c2 = false := ht2c c2 (List.mem_cons_self _ _)
          have hsp1 : isSpaceChar ' ' = true := by decide
          show collapseRuns (t ++ ' ' :: joinSp ((c2 :: t2') :: ts'')) =
            t ++ ' ' :: joinSp ((c2 :: t2') :: ts'')
          rw [collapseRuns_append htc]
          congr 1
          rw [hl', List.cons_append]
          rw [collapseRuns.eq_def]
          dsimp only
          rw [hsp1, hc2]
          simp only [if_true, Bool.false_eq_true, if_false]
          rw [← List.cons_append, ← hl']
          exact congrArg _ (ih (fun x hx => h x (List.mem_cons_of_mem _ hx)))

theorem collapseWS_joinSp {ts : List (List Char)}
    (h : ∀ t ∈ ts, t ≠ [] ∧ ∀ c ∈ t, isSpaceChar c = false) :
    collapseWS (joinSp ts) = joinSp ts := by
  unfold collapseWS
  rw [pyStripL_joinSp h, collapseRuns_joinSp ts h]

theorem mpCond_mp_left (y : List Char) :
    mpCond ("MercadoPago".data) y = false := by
  unfold mpCond
  rw [show (pyLowerL ("MercadoPago".data) == "mercado".data) = false from
    by decide]
  rfl

theorem mpCond_mp_right (y : List Char) :
    mpCond y ("MercadoPago".data) = false := by
  unfold mpCond
  rw [show (pyLowerL ("MercadoPago".data) == "pago".data) = false from
    by decide]
  exact Bool.and_false _

theorem mergeMP_head (a : List Char) (l : List (List Char)) :
    (mergeMP (a :: l)).head? = some a ∨
    (mergeMP (a :: l)).head? = some ("MercadoPago".data) := by
  cases l with
  | nil => left; rfl
  | cons b l2 =>
      by_cases h : mpCond a b = true
      · right
        show (if mpCond a b then "MercadoPago".data :: mergeMP l2
          else a :: mergeMP (b :: l2)).head? = _
        rw [if_pos h]
        rfl
      · left
        show (if mpCond a b then "MercadoPago".data :: mergeMP l2
          else a :: mergeMP (b :: l2)).head? = _
        rw [if_neg h]
        rfl

theorem mergeMP_mem : ∀ (l : List (List Char)) (t : List Char),
    t ∈ mergeMP l → t ∈ l ∨ t = "MercadoPago".data := by
  intro l
  induction l using mergeMP.induct with
  | case1 => intro t ht; cases ht
  | case2 a =>
      intro t ht
      left
      simpa [mergeMP] using ht
  | case3 a b rest2 h ih =>
      intro t ht
      rw [show mergeMP (a :: b :: rest2) =
        "MercadoPago".data :: mergeMP rest2 from by
          show (if mpCond a b then _ else _) = _
          rw [if_pos h]] at ht
      rcases List.mem_cons.mp ht with h1 | h1
      · right; exact h1
      · rcases ih t h1 with h2 | h2
        · left
          exact List.mem_cons_of_mem _ (List.mem_cons_of_mem _ h2)
        · right; exact h2
  | case4 a b rest2 h ih =>
      intro t ht
      rw [show mergeMP (a :: b :: rest2) = a :: mergeMP (b :: rest2) from by
          show (if mpCond a b then _ else _) = _
          rw [if_neg h]] at ht
      rcases List.mem_cons.mp ht with h1 | h1
      · left; subst h1; exact List.mem_cons_self _ _
      · rcases ih t h1 with h2 | h2
        · left; exact List.mem_cons_of_mem _ h2
        · right; exact h2

theorem mergeMP_chain : ∀ l : List (List Char),
    (mergeMP l).Chain' (fun x y => mpCond x y = false) := by
  intro l
  induction l using mergeMP.induct with
  | case1 => simp [mergeMP]
  | case2 a => simp [mergeMP]
  | case3 a b rest2 h ih =>
      rw [show mergeMP (a :: b :: rest2) =
        "MercadoPago".data :: mergeMP rest2 from by
          show (if mpCond a b then _ else _) = _
          rw [if_pos h]]
      rw [List.chain'_cons']
      refine ⟨?_, ih⟩
      intro y _
      exact mpCond_mp_left y
  | case4 a b rest2 h ih =>
      rw [show mergeMP (a :: b :: rest2) = a :: mergeMP (b :: rest2) from by
          show (if mpCond a b then _ else _) = _
          rw [if_neg h]]
      rw [List.chain'_cons']
      refine ⟨?_, ih⟩
      intro y hy
      rcases mergeMP_head b rest2 with hh | hh
      · rw [hh] at hy
        have hyb : b = y := by simpa using hy
        subst hyb
        exact Bool.eq_false_iff.mpr h
      · rw [hh] at hy
        have hyb : "MercadoPago".data = y := by simpa using hy
        subst hyb
        exact mpCond_mp_right a

theorem mergeMP_of_chain : ∀ l : List (List Char),
    l.Chain' (fun x y => mpCond x y = false) → mergeMP l = l := by
  intro l
  induction l using mergeMP.induct with
  | case1 => intro _; rfl
  | case2 a => intro _; rfl
  | case3 a b rest2 h ih =>
      intro hch
      have hab := (List.chain'_cons.mp hch).1
      rw [h] at hab
      cases hab
  | case4 a b rest2 h ih =>
      intro hch
      show (if mpCond a b then "MercadoPago".data :: mergeMP rest2
        else a :: mergeMP (b :: rest2)) = a :: b :: rest2
      rw [if_neg h, ih (List.chain'_cons.mp hch).2]

theorem trimNoise_pref : ∀ l : List (List Char), trimNoise l <+: l := by
  intro l
  induction l with
  | nil => exact List.prefix_rfl
  | cons a rest ih =>
      show (match trimNoise rest with
        | [] => if noiseTok a || allDigits a then [] else [a]
        | r => a :: r) <+: a :: rest
      rcases htr : trimNoise rest with _ | ⟨r0, rs⟩
      · dsimp only
        by_cases hb : (noiseTok a || allDigits a) = true
        · rw [if_pos hb]; exact List.nil_prefix
        · rw [if_neg hb]
          exact List.cons_prefix_cons.mpr ⟨rfl, List.nil_prefix⟩
      · dsimp only
        rw [← htr]
        exact List.cons_prefix_cons.mpr ⟨rfl, ih⟩

theorem trimNoise_idem : ∀ l : List (List Char),
    trimNoise (trimNoise l) = trimNoise l := by
  intro l
  induction l with
  | nil => rfl
  | cons a rest ih =>
      show trimNoise (match trimNoise rest with
        | [] => if noiseTok a || allDigits a then [] else [a]
        | r => a :: r) =
        (match trimNoise rest with
        | [] => if noiseTok a || allDigits a then [] else [a]
        | r => a :: r)
      rcases htr : trimNoise rest with _ | ⟨r0, rs⟩
      · dsimp only
        by_cases hb : (noiseTok a || allDigits a) = true
        · rw [if_pos hb]; rfl
        · rw [if_neg hb]
          show (match trimNoise ([] : List (List Char)) with
            | [] => if noiseTok a || allDigits a then [] else [a]
            | r => a :: r) = [a]
          rw [show trimNoise ([] : List (List Char)) = [] from rfl]
          dsimp only
          rw [if_neg hb]
      · dsimp only
        rw [htr] at ih
        show (match trimNoise (r0 :: rs) with
          | [] => if noiseTok a || allDigits a then [] else [a]
          | r => a :: r) = a :: r0 :: rs
        rw [ih]

theorem stableTokB_spec {t : List Char} (h : stableTokB t = true) :
    classifyTok (pyUpperL t) = some t ∧ t ≠ [] ∧
      ∀ c ∈ t, isSpaceChar c = false := by
  unfold stableTokB at h
  simp only [Bool.and_eq_true, beq_iff_eq, Bool.not_eq_true',
    List.all_eq_true] at h
  obtain ⟨⟨h1, h2⟩, h3⟩ := h
  refine ⟨h1, ?_, fun c hc => h3 c hc⟩
  intro hnil
  subst hnil
  simp at h2

theorem abbrev_stable_facts :
    abbrevPairs.all (fun p => stableTokB p.2) = true := by decide

theorem accent_stable_facts :
    accentPairs.all (fun p => stableTokB p.2) = true := by decide

theorem mp_token_stable : stableTokB ("MercadoPago".data) = true := by decide

theorem lookup_mem {pairs : List (List Char × List Char)} {u w : List Char}
    (h : (pairs.find? (fun p => p.1 == u)).map (fun p => p.2) = some w) :
    ∃ p ∈ pairs, p.2 = w := by
  rcases hf : pairs.find? (fun p => p.1 == u) with _ | p
  · rw [hf] at h; cases h
  · rw [hf] at h
    simp only [Option.map_some'] at h
    exact ⟨p, List.mem_of_find?_eq_some hf, by injection h⟩

theorem classifyTok_stable {tok v : List Char}
    (hupper : pyUpperL tok = tok)
    (hsp : ∀ c ∈ tok, isSpaceChar c = false)
    (hc0 : classifyTok tok = some v) :
    classifyTok (pyUpperL v) = some v ∧ v ≠ [] ∧
      ∀ c ∈ v, isSpaceChar c = false := by
  have hstrip : pyStripL tok = tok := pyStripL_no_space hsp
  have hc := hc0
  unfold classifyTok at hc
  rw [hstrip, hupper] at hc
  by_cases h1 : tok.isEmpty = true
  · rw [if_pos h1] at hc; cases hc
  rw [if_neg h1] at hc
  by_cases h2 : noiseTok tok = true
  · rw [if_pos h2] at hc; cases hc
  rw [if_neg h2] at hc
  by_cases h3 : (decide (12 ≤ tok.length) && allDigits tok) = true
  · rw [if_pos h3] at hc; cases hc
  rw [if_neg h3] at hc
  rcases ha : abbrevLookup tok with _ | w
  · rw [ha] at hc
    dsimp only at hc
    rcases haa : accentLookup tok with _ | w2
    · rw [haa] at hc
      dsimp only at hc
      by_cases h4 : acronymsL.contains tok = true
      · rw [if_pos h4] at hc
        injection hc with hv
        subst hv
        refine ⟨?_, ?_, hsp⟩
        · rw [hupper]; exact hc0
        · intro hnil
          apply h1
          rw [hnil]
          rfl
      · rw [if_neg h4] at hc
        injection hc with hv
        refine ⟨?_, ?_, ?_⟩
        · rw [show pyUpperL v = tok from by
            rw [← hv, pyUpperL_pyTitleL, hupper]]
          exact hc0
        · rw [← hv]
          intro hnil
          have hlen := pyTitleL_length tok
          rw [hnil] at hlen
          have htok : tok = [] := List.length_eq_zero.mp hlen.symm
          subst htok
          exact h1 rfl
        · rw [← hv]
          intro c hcmem
          exact pyTitleGo_forall (P := fun c => isSpaceChar c = false)
            (fun c h => by
              show isSpaceChar (lowerChar c) = false
              rw [isSpaceChar_lowerChar]
              exact h)
            (fun c h => by
              show isSpaceChar (upperChar c) = false
              rw [isSpaceChar_upperChar]
              exact h)
            false tok hsp c hcmem
    · rw [haa] at hc
      dsimp only at hc
      injection hc with hv
      obtain ⟨p, hp, hpw⟩ := lookup_mem (u := tok) haa
      have hst := stableTokB_spec (List.all_eq_true.mp accent_stable_facts p hp)
      rw [← hv, ← hpw]
      exact hst
  · rw [ha] at hc
    dsimp only at hc
    injection hc with hv
    obtain ⟨p, hp, hpw⟩ := lookup_mem (u := tok) ha
    have hst := stableTokB_spec (List.all_eq_true.mp abbrev_stable_facts p hp)
    rw [← hv, ← hpw]
    exact hst

theorem split_tokens_upper {l : List Char} :
    ∀ tok ∈ splitSp (pyUpperL l), pyUpperL tok = tok := by
  intro tok htok
  have hch : ∀ c ∈ tok, upperChar c = c := by
    intro c hc
    have hcl : c ∈ pyUpperL l := splitSp_subset _ tok htok c hc
    obtain ⟨c', _, rfl⟩ := List.mem_map.mp hcl
    exact upperChar_idem c'
  unfold pyUpperL
  rw [List.map_congr_left hch]
  simp

theorem split_tokens_nospace {l : List Char} :
    ∀ tok ∈ splitSp (pyUpperL (collapseWS l)), ∀ c ∈ tok,
      isSpaceChar c = false := by
  intro tok htok c hc
  by_contra hcon
  rw [Bool.not_eq_false] at hcon
  have hsep : isSepChar c = false := splitSp_sep_false _ tok htok c hc
  have hcl : c ∈ pyUpperL (collapseWS l) := splitSp_subset _ tok htok c hc
  obtain ⟨c', hc', rfl⟩ := List.mem_map.mp hcl
  have hspc' : isSpaceChar c' = true := by
    rw [← isSpaceChar_upperChar c']
    exact hcon
  have hc'' : c' = ' ' := collapseRuns_space (pyStripL l) c' hc' hspc'
  subst hc''
  rw [upperChar_space] at hsep
  exact absurd hsep (by decide)

theorem filterMap_stable : ∀ ts : List (List Char),
    (∀ t ∈ ts, classifyTok (pyUpperL t) = some t) →
    (ts.map pyUpperL).filterMap classifyTok = ts := by
  intro ts
  induction ts with
  | nil => intro _; rfl
  | cons t ts' ih =>
      intro h
      rw [List.map_cons]
      rw [List.filterMap_cons]
      rw [h t (List.mem_cons_self _ _)]
      rw [ih fun x hx => h x (List.mem_cons_of_mem _ hx)]

theorem normalize_description_examples :
    normalize_description "PAGO  TARJETA 12345" = "Pago Tarjeta" ∧
    normalize_description " mercado pago OXXO " = "MercadoPago Oxxo" ∧
    normalize_description "TRANSF SPEI NOMINA 1234567890123" =
      "Transferencia SPEI Nómina" ∧
    normalize_description "" = "" := by
  refine ⟨by decide, by decide, by decide, by decide⟩

/-- C3: `normalize_description` is idempotent: normalizing a description
twice equals normalizing it once, for every input string. -/
theorem normalize_description_idempotent (x : String) :
    normalize_description (normalize_description x) =
      normalize_description x := by
  by_cases h0 : (collapseWS x.data).isEmpty = true
  · have hy : normalize_description x = "" := by
      unfold normalize_description
      rw [if_pos h0]
    rw [hy]
    rfl
  · have hyd : normalize_description x =
        ⟨joinSp (normalize_tokens (splitSp (pyUpperL (collapseWS x.data))))⟩ := by
      unfold normalize_description
      rw [if_neg h0]
    have hstab : ∀ t ∈ normalize_tokens (splitSp (pyUpperL (collapseWS x.data))),
        classifyTok (pyUpperL t) = some t ∧ t ≠ [] ∧
          ∀ c ∈ t, isSpaceChar c = false := by
      intro t ht
      have ht1 : t ∈ mergeMP
          ((splitSp (pyUpperL (collapseWS x.data))).filterMap classifyTok) :=
        ((trimNoise_pref _).sublist).mem ht
      rcases mergeMP_mem _ t ht1 with h | h
      · obtain ⟨tok, htok, hcl⟩ := List.mem_filterMap.mp h
        exact classifyTok_stable (split_tokens_upper tok htok)
          (split_tokens_nospace tok htok) hcl
      · subst h
        exact stableTokB_spec mp_token_stable
    rcases hout : normalize_tokens (splitSp (pyUpperL (collapseWS x.data)))
      with _ | ⟨o, os⟩
    · rw [hyd, hout]
      rfl
    · rw [hyd, hout]
      have hstab' : ∀ t ∈ o :: os, classifyTok (pyUpperL t) = some t ∧
          t ≠ [] ∧ ∀ c ∈ t, isSpaceChar c = false := by
        rw [← hout]
        exact hstab
      have hne : ∀ t ∈ o :: os, t ≠ [] ∧ ∀ c ∈ t, isSpaceChar c = false :=
        fun t ht => ⟨(hstab' t ht).2.1, (hstab' t ht).2.2⟩
      have hout' : trimNoise (mergeMP
          ((splitSp (pyUpperL (collapseWS x.data))).filterMap classifyTok)) =
          o :: os := hout
      unfold normalize_description
      have hdata : (⟨joinSp (o :: os)⟩ : String).data = joinSp (o :: os) := rfl
      rw [hdata, collapseWS_joinSp hne]
      have hone : o ≠ [] := (hne o (List.mem_cons_self _ _)).1
      have hjoin_ne : (joinSp (o :: os)).isEmpty = false := by
        obtain ⟨l', hl'⟩ := joinSp_cons o os
        obtain ⟨c0, o0, rfl⟩ : ∃ c0 o0, o = c0 :: o0 := by
          rcases o with _ | ⟨a, b⟩
          · exact absurd rfl hone
          · exact ⟨a, b, rfl⟩
        rw [hl']
        rfl
      rw [hjoin_ne]
      simp only [Bool.false_eq_true, if_false]
      rw [pyUpperL_joinSp]
      rw [splitSp_joinSp ((o :: os).map pyUpperL) (by simp) ?tokhyp]
      case tokhyp =>
        intro t ht
        obtain ⟨t', ht', rfl⟩ := List.mem_map.mp ht
        obtain ⟨htne, htsp⟩ := hne t' ht'
        constructor
        · intro hnil
          apply htne
          unfold pyUpperL at hnil
          exact List.map_eq_nil_iff.mp hnil
        · intro c hc
          obtain ⟨c', hc', rfl⟩ := List.mem_map.mp hc
          have hsp1 : isSpaceChar (upperChar c') = false := by
            rw [isSpaceChar_upperChar]
            exact htsp c' hc'
          by_contra hcon
          rw [Bool.not_eq_false] at hcon
          have := isSep_isSpace hcon
          rw [hsp1] at this
          cases this
      unfold normalize_tokens
      rw [filterMap_stable _ (fun t ht => (hstab' t ht).1)]
      have hchain : (o :: os).Chain' (fun a b => mpCond a b = false) := by
        have hchain0 := mergeMP_chain
          ((splitSp (pyUpperL (collapseWS x.data))).filterMap classifyTok)
        have hchain1 := List.Chain'.prefix hchain0 (trimNoise_pref _)
        rw [hout'] at hchain1
        exact hchain1
      rw [mergeMP_of_chain _ hchain]
      rw [show trimNoise (o :: os) = o :: os from by
        have hti := trimNoise_idem (mergeMP
          ((splitSp (pyUpperL (collapseWS x.data))).filterMap classifyTok))
        rw [hout'] at hti
        exact hti]

/-- The summary of a migration run holds exactly the four counters
files_processed, rows_seen, rows_inserted and rows_backfilled — there is
no warning count among them, against the claim's "and warning count"
(here on a run over one file whose read fails). -/
theorem migration_summary_keys_counterexample :
    (migrate ({} : DBState) [fileC4] (fun s => s)).2.map Prod.fst =
      ["files_processed", "rows_seen", "rows_inserted",
        "rows_backfilled"] ∧
    (migrate ({} : DBState) [fileC4] (fun s => s)).2.length = 4 ∧
    "warnings" ∉ (migrate ({} : DBState) [fileC4] (fun s => s)).2.map
      Prod.fst := by
  refine ⟨rfl, rfl, by decide⟩

/-- C4 (amended: the summary carries the four counters files_processed,
rows_seen, rows_inserted and rows_backfilled — no warning count): a run
always returns that summary; a file whose read raises gets its import
record set to status "failed" with the exception message; and the failure
neither halts the remaining files nor skips the backfill pass, which
renormalizes exactly the stored rows with empty normalized text without
touching their descriptions. -/
theorem migration_summary_resilience
    (st : DBState) (file : FileInput) (rest : List FileInput)
    (f : String → String) (e : String)
    (hpresent : file.present = true)
    (hfail : file.read = Except.error e)
    (hids : ∀ r ∈ st.imports, r.import_id ≠ st.imports.length + 1) :
    (∀ (st' : DBState) (files : List FileInput),
      (migrate st' files f).2.map Prod.fst =
        ["files_processed", "rows_seen", "rows_inserted",
          "rows_backfilled"]) ∧
    (processFile st file).1.imports =
      st.imports ++
        [{ import_id := st.imports.length + 1, bank_id := file.bank_id,
           source_file := file.path, status := "failed", row_count := 0,
           error := some e }] ∧
    migrate st (file :: rest) f = migrate (processFile st file).1 rest f ∧
    (∀ (st' : DBState) (files : List FileInput),
      ∀ r ∈ (migrate st' files f).1.transactions,
        r.normalized_description = "" → f r.description = "") := by
  have hpf : processFile st file =
      (update_import_status
        (record_import st file.bank_id file.path "started" 0 none).1
        (record_import st file.bank_id file.path "started" 0 none).2
        "failed" none (some e), 0, 0, 0) := by
    unfold processFile
    rw [hpresent]
    simp only [Bool.not_true, Bool.false_eq_true, if_false]
    rw [hfail]
  refine ⟨fun st' files => rfl, ?_, ?_, ?_⟩
  · rw [hpf]
    unfold update_import_status record_import
    dsimp only
    rw [List.map_append]
    congr 1
    · have hmap : ∀ r ∈ st.imports,
          (fun r : ImportRec =>
            if r.import_id = st.imports.length + 1 then
              { r with
                status := "failed",
                row_count := (none : Option ℕ).getD r.row_count,
                error := some e }
            else r) r = r := by
        intro r hr
        dsimp only
        rw [if_neg (hids r hr)]
      rw [List.map_congr_left hmap]
      simp
    · simp only [List.map_cons, List.map_nil]
      simp only [if_true]
      rfl
  · unfold migrate
    rw [List.foldl_cons]
    have hg : migrateStep (st, 0, 0, 0) file =
        ((processFile st file).1, 0, 0, 0) := by
      unfold migrateStep
      rw [hpf]
      rfl
    rw [hg]
  · intro st' files r hr hempty
    unfold migrate at hr
    dsimp only at hr
    unfold backfill_normalized_descriptions at hr
    dsimp only at hr
    obtain ⟨r0, hr0, hr0e⟩ := List.mem_map.mp hr
    by_cases hnd : r0.normalized_description = ""
    · rw [if_pos hnd] at hr0e
      subst hr0e
      exact hempty
    · rw [if_neg hnd] at hr0e
      subst hr0e
      exact absurd hempty hnd

theorem migration_summary_resilience_witness :
    (migrate ({} : DBState) [fileC4] (fun s => s)).2.map Prod.fst =
      ["files_processed", "rows_seen", "rows_inserted",
        "rows_backfilled"] ∧
    (processFile ({} : DBState) fileC4).1.imports =
      [{ import_id := 1, bank_id := "hsbc",
         source_file := "data/hsbc/firefly_hsbc.csv", status := "failed",
         row_count := 0, error := some "bad csv" }] := by
  obtain ⟨h1, h2, _, _⟩ := migration_summary_resilience ({} : DBState)
    fileC4 [] (fun s => s) "bad csv" rfl rfl
    (fun r hr => absurd hr (List.not_mem_nil r))
  refine ⟨h1 ({} : DBState) [fileC4], ?_⟩
  rw [h2]
  rfl

end LedgerConv
